import Mathlib

/-!
Verification of the pachyderm file store: the btrfs driver and the PFS API
server.

A shallow embedding of `src/pfs/drive/btrfs/driver.go` and of
`src/server/pfs/server/api_server.go`, and theorems about it.

Conventions of the embedding:

* Go strings are `String`; the string library functions used by the source
  (`filepath.Join`, `path.Clean`, `strings.TrimPrefix`, `strings.Contains`)
  are written out over the list of characters.
* A Go function returning `error` returns `Option Err` (`none` is `nil`);
  a Go function returning `(T, error)` returns the pair of both values, or
  `Except Err T` where the source never looks at the value next to an error.
* Code with effects passes its state explicitly: the function takes the state
  and returns its result together with the state after it.
* `for shard := range shards` over a `map[int]bool` visits every key once in
  an order the runtime picks; the map is given as the list of its keys in the
  order of the visit.
-/

set_option linter.dupNamespace false

namespace Pfs

/-! ## Strings and paths -/

/-- Go `strings.HasPrefix`, over characters. -/
def hasPrefixChars : List Char → List Char → Bool
  | _, [] => true
  | [], _ :: _ => false
  | c :: cs, p :: ps => if c = p then hasPrefixChars cs ps else false

/-- Go `strings.Contains`, over characters: `sub` occurs somewhere in `s`. -/
def containsChars : List Char → List Char → Bool
  | [], sub => hasPrefixChars [] sub
  | c :: cs, sub => hasPrefixChars (c :: cs) sub || containsChars cs sub

/-- Go `strings.Contains`. -/
def stringsContains (s substr : String) : Bool :=
  containsChars s.toList substr.toList

/-- Go `strings.TrimPrefix`: `s` without the leading `pre`, or `s` itself when
it does not start with `pre`. -/
def stringsTrimPrefix (s pre : String) : String :=
  if hasPrefixChars s.toList pre.toList then String.mk (s.toList.drop pre.toList.length) else s

/-- Split at every slash; `"a//b"` gives `["a", "", "b"]`. -/
def splitSlash : List Char → List (List Char)
  | [] => [[]]
  | c :: cs =>
    if c = '/' then [] :: splitSlash cs
    else
      match splitSlash cs with
      | [] => [[c]]
      | w :: ws => (c :: w) :: ws

/-- One element of a path seen by `Clean`; `out` is the cleaned path so far,
last element first. Empty elements and `.` are dropped, `..` removes the
element before it, is dropped at the root, and is kept otherwise. -/
def cleanStep (rooted : Bool) (out : List (List Char)) (comp : List Char) : List (List Char) :=
  if comp = [] ∨ comp = ['.'] then out
  else if comp = ['.', '.'] then
    match out with
    | [] => if rooted then [] else [comp]
    | top :: rest => if top = ['.', '.'] then comp :: out else rest
  else comp :: out

/-- Elements joined by slashes. -/
def joinSlash : List (List Char) → List Char
  | [] => []
  | [w] => w
  | w :: ws => w ++ '/' :: joinSlash ws

/-- Go `path.Clean` (and `filepath.Clean` on Unix), over characters. -/
def cleanChars (path : List Char) : List Char :=
  let rooted := hasPrefixChars path ['/']
  let body := joinSlash ((splitSlash path).foldl (cleanStep rooted) []).reverse
  if rooted then '/' :: body
  else if body = [] then ['.'] else body

/-- Go `path.Clean`. -/
def pathClean (path : String) : String := String.mk (cleanChars path.toList)

/-- Go `filepath.Join` on Unix: leading empty elements are skipped, the rest
is joined by slashes and cleaned; no non-empty element gives `""`. -/
def filepathJoin : List String → String
  | [] => ""
  | e :: es =>
    if e = "" then filepathJoin es
    else String.mk (cleanChars (joinSlash ((e :: es).map String.toList)))

/-- Go `fmt.Sprintf("%d", n)`. -/
def sprintfD (n : Int) : String := toString n

/-! ## Errors and the data model of the driver -/

/-- A byte; the code never computes with one. -/
abbrev Byte := Nat

/-- Go struct `pfs.Repository`. -/
structure Repository where
  Name : String
  deriving DecidableEq, Repr

/-- Go struct `pfs.Commit`. -/
structure Commit where
  Repository : Repository
  Id : String
  deriving DecidableEq, Repr

/-- Go struct `pfs.Path`. -/
structure Path where
  Commit : Commit
  Path : String
  deriving DecidableEq, Repr

/-- Go `error` values the embedded code makes or passes on. -/
inductive Err where
  /-- An error returned by the operating system, the btrfs tool or another
  collaborator. -/
  | external (msg : String)
  /-- `fmt.Errorf("%+v is not a read-only snapshot", commit)`. -/
  | notReadOnly (commit : Commit)
  /-- `fmt.Errorf("PutFileRequest shouldn't have type dir and a value")`. -/
  | dirWithValue
  /-- `fmt.Errorf("TODO")`. -/
  | todo
  /-- `io.EOF`. -/
  | eof
  deriving DecidableEq, Repr

instance instDecidableEqExcept {ε α : Type} [DecidableEq ε] [DecidableEq α] :
    DecidableEq (Except ε α)
  | .ok a, .ok b =>
    if h : a = b then isTrue (by rw [h]) else isFalse (fun hc => h (by cases hc; rfl))
  | .error a, .error b =>
    if h : a = b then isTrue (by rw [h]) else isFalse (fun hc => h (by cases hc; rfl))
  | .ok _, .error _ => isFalse (fun hc => by cases hc)
  | .error _, .ok _ => isFalse (fun hc => by cases hc)

/-- Modelled from the spec: `drive.SystemRootCommitID`, declared in package
`drive`; the path layout names the system-root volume `__root__`. -/
def SystemRootCommitID : String := "__root__"

/-- Modelled from the spec: `drive.InitialCommitID`, declared in package
`drive`; the path layout and the header of `driver.go` name it `scratch`. -/
def InitialCommitID : String := "scratch"

/-- Go struct `driver`. -/
structure driver where
  rootDir : String
  deriving DecidableEq, Repr

/-- Go `driver.repositoryPath`. -/
def driver.repositoryPath (d : driver) (repository : Repository) : String :=
  filepathJoin [d.rootDir, repository.Name]

/-- Go `driver.commitPathNoShard`. -/
def driver.commitPathNoShard (d : driver) (commit : Commit) : String :=
  filepathJoin [d.repositoryPath commit.Repository, commit.Id]

/-- Go `driver.commitPath`. -/
def driver.commitPath (d : driver) (commit : Commit) (shard : Int) : String :=
  filepathJoin [d.commitPathNoShard commit, sprintfD shard]

/-- Go `driver.filePath`. -/
def driver.filePath (d : driver) (path : Path) (shard : Int) : String :=
  filepathJoin [d.commitPath path.Commit shard, path.Path]

/-! ## The storage primitives the driver calls -/

/-- What `snapshotPropertyGet` hands to `isReadOnly` when the btrfs tool
started: the lines the scanner reads, and the scanner's error after them. -/
abbrev PropertyOutput := List String × Option Err

/-- The operating-system and btrfs calls of `driver.go`, over a storage state
`σ`. Each takes the state and returns its Go result and the state after. -/
structure Backend (σ : Type) where
  /-- Go `os.Mkdir(path, 0700)`. -/
  osMkdir : String → σ → Option Err × σ
  /-- Go `snapshotPropertyGet`: `btrfs property get -t s path`. -/
  snapshotPropertyGet : String → σ → Except Err PropertyOutput × σ
  /-- Go `subvolumeCreate`: `btrfs subvolume create path`. -/
  subvolumeCreate : String → σ → Option Err × σ
  /-- Go `subvolumeSnapshot`: `btrfs subvolume snapshot src dest`. -/
  subvolumeSnapshot : String → String → σ → Option Err × σ
  /-- Go `subvolumeSnapshotReadonly`: `btrfs subvolume snapshot -r src dest`. -/
  subvolumeSnapshotReadonly : String → String → σ → Option Err × σ

/-- The value `isReadOnly` computes from what `snapshotPropertyGet` returned:
`true` as soon as a scanned line contains `ro=true`, else `false` with the
scanner's error. -/
def readOnlyResult : Except Err PropertyOutput → Bool × Option Err
  | .error err => (false, some err)
  | .ok (lines, scanErr) =>
    if lines.any (fun line => stringsContains line "ro=true") then (true, none)
    else (false, scanErr)

/-- Go `isReadOnly`. -/
def isReadOnly {σ : Type} (B : Backend σ) (path : String) (st : σ) : (Bool × Option Err) × σ :=
  let r := B.snapshotPropertyGet path st
  (readOnlyResult r.1, r.2)

/-! ## The driver -/

/-- The loop of `driver.InitRepository` over the shards. -/
def initShards {σ : Type} (B : Backend σ) (d : driver) (systemRootCommit initialCommit : Commit) :
    List Int → σ → Option Err × σ
  | [], st => (none, st)
  | shard :: rest, st =>
    match B.subvolumeCreate (d.commitPath systemRootCommit shard) st with
    | (some err, st) => (some err, st)
    | (none, st) =>
      match B.subvolumeSnapshotReadonly (d.commitPath systemRootCommit shard)
          (d.commitPath initialCommit shard) st with
      | (some err, st) => (some err, st)
      | (none, st) => initShards B d systemRootCommit initialCommit rest st

/-- Go `driver.InitRepository`. -/
def InitRepository {σ : Type} (B : Backend σ) (d : driver) (repository : Repository)
    (shards : List Int) (st : σ) : Option Err × σ :=
  match B.osMkdir (d.repositoryPath repository) st with
  | (some err, st) => (some err, st)
  | (none, st) =>
    let systemRootCommit : Commit := { Repository := repository, Id := SystemRootCommitID }
    match B.osMkdir (d.commitPathNoShard systemRootCommit) st with
    | (some err, st) => (some err, st)
    | (none, st) =>
      let initialCommit : Commit := { Repository := repository, Id := InitialCommitID }
      match B.osMkdir (d.commitPathNoShard initialCommit) st with
      | (some err, st) => (some err, st)
      | (none, st) => initShards B d systemRootCommit initialCommit shards st

/-- The loop of `driver.Branch` over the shards. -/
def branchShards {σ : Type} (B : Backend σ) (d : driver) (commit newCommit : Commit) :
    List Int → σ → Option Err × σ
  | [], st => (none, st)
  | shard :: rest, st =>
    let commitPath := d.commitPath commit shard
    match isReadOnly B commitPath st with
    | ((_, some err), st) => (some err, st)
    | ((false, none), st) => (some (Err.notReadOnly commit), st)
    | ((true, none), st) =>
      let newCommitPath := d.commitPath newCommit shard
      match B.subvolumeSnapshot commitPath newCommitPath st with
      | (some err, st) => (some err, st)
      | (none, st) => branchShards B d commit newCommit rest st

/-- Go `driver.Branch`. `newCommit = none` is the nil pointer; `newID` is the
identifier `drive.NewCommitID()` returns when it is called. The Go result
`(*pfs.Commit, error)` is `nil` next to every error. -/
def Branch {σ : Type} (B : Backend σ) (d : driver) (newID : String) (commit : Commit)
    (newCommit : Option Commit) (shards : List Int) (st : σ) : Except Err Commit × σ :=
  let newCommit : Commit :=
    match newCommit with
    | none => { Repository := commit.Repository, Id := newID }
    | some c => c
  match B.osMkdir (d.commitPathNoShard newCommit) st with
  | (some err, st) => (.error err, st)
  | (none, st) =>
    match branchShards B d commit newCommit shards st with
    | (some err, st) => (.error err, st)
    | (none, st) => (.ok newCommit, st)

/-- Go `driver.ListFiles`: `return nil, nil`. -/
def ListFiles (_d : driver) (_path : Path) (_shard : Int) : Option (List Path) × Option Err :=
  (none, none)

/-- Go `driver.GetParent`: `return nil, nil`. -/
def GetParent (_d : driver) (_commit : Commit) : Option Commit × Option Err :=
  (none, none)

/-- Go `driver.PullDiff`: `return nil, nil`; the `io.Reader` it would return
delivers the bytes of the diff. -/
def PullDiff (_d : driver) (_commit : Commit) (_shard : Int) : Option (List Byte) × Option Err :=
  (none, none)

/-- Go `driver.PushDiff`: `return nil`; `reader` delivers the bytes of the diff
to apply. -/
def PushDiff (_d : driver) (_commit : Commit) (_shard : Int) (_reader : List Byte) :
    Option Err :=
  none

/-! ## Recording the calls to the storage primitives -/

/-- One call to a storage primitive: its arguments and what it returned. -/
inductive Call where
  | osMkdir (path : String) (res : Option Err)
  | snapshotPropertyGet (path : String) (res : Except Err PropertyOutput)
  | subvolumeCreate (path : String) (res : Option Err)
  | subvolumeSnapshot (src dest : String) (res : Option Err)
  | subvolumeSnapshotReadonly (src dest : String) (res : Option Err)
  deriving DecidableEq

/-- The source, destination and result of a call that is a writable snapshot. -/
def Call.writableSnapshot : Call → Option (String × String × Option Err)
  | Call.subvolumeSnapshot src dest res => some (src, dest, res)
  | _ => none

/-- The same primitives, each call also appended to a log kept next to the
storage state. The driver run on `B.traced` does what it does on `B` and
records the calls it makes, in order. -/
def Backend.traced {σ : Type} (B : Backend σ) : Backend (σ × List Call) where
  osMkdir path s :=
    let r := B.osMkdir path s.1
    (r.1, (r.2, s.2 ++ [Call.osMkdir path r.1]))
  snapshotPropertyGet path s :=
    let r := B.snapshotPropertyGet path s.1
    (r.1, (r.2, s.2 ++ [Call.snapshotPropertyGet path r.1]))
  subvolumeCreate path s :=
    let r := B.subvolumeCreate path s.1
    (r.1, (r.2, s.2 ++ [Call.subvolumeCreate path r.1]))
  subvolumeSnapshot src dest s :=
    let r := B.subvolumeSnapshot src dest s.1
    (r.1, (r.2, s.2 ++ [Call.subvolumeSnapshot src dest r.1]))
  subvolumeSnapshotReadonly src dest s :=
    let r := B.subvolumeSnapshotReadonly src dest s.1
    (r.1, (r.2, s.2 ++ [Call.subvolumeSnapshotReadonly src dest r.1]))

/-! ## A directory tree with btrfs subvolumes -/

/-- What stands at a path: a plain directory, or a subvolume with its
read-only property. -/
inductive Node where
  | dir
  | subvolume (readOnly : Bool)
  deriving DecidableEq, Repr

/-- Modelled from the spec: the storage medium under the driver (the file
system reached through `os.Mkdir` and through the btrfs tool that package
`executil` runs; neither is part of the sources). A state lists the paths
that exist, oldest first. -/
abbrev Fs := List (String × Node)

/-- The node at a path, if the path exists. -/
def Fs.find : Fs → String → Option Node
  | [], _ => none
  | (p, n) :: rest, path => if p = path then some n else Fs.find rest path

/-- Go `filepath.Dir`: the path without its last element, cleaned. -/
def filepathDir (path : String) : String :=
  String.mk (cleanChars (path.toList.reverse.dropWhile (fun c => c ≠ '/')).reverse)

/-- Go `filepath.Base`: the last element of the path. -/
def filepathBase (path : String) : String :=
  let stripped := (path.toList.reverse.dropWhile (fun c => c = '/'))
  if path.toList = [] then "."
  else if stripped = [] then "/"
  else String.mk (stripped.takeWhile (fun c => c ≠ '/')).reverse

/-- Modelled from the spec: `os.Mkdir`, the atomic create-if-absent of the
medium. It fails, changing nothing, when the path exists or its parent does
not. -/
def fsMkdir (path : String) (fs : Fs) : Option Err × Fs :=
  if (fs.find path).isSome then (some (Err.external "file exists"), fs)
  else if (fs.find (filepathDir path)).isNone then
    (some (Err.external "no such file or directory"), fs)
  else (none, fs ++ [(path, Node.dir)])

/-- Modelled from the spec: probe-is-readonly, `btrfs property get -t s`. It
prints the `ro` property of a subvolume and fails on anything else. -/
def fsPropertyGet (path : String) (fs : Fs) : Except Err PropertyOutput × Fs :=
  match fs.find path with
  | some (Node.subvolume ro) => (.ok ([if ro then "ro=true" else "ro=false"], none), fs)
  | _ => (.error (Err.external "not a btrfs subvolume"), fs)

/-- Modelled from the spec: create-writable-volume, `btrfs subvolume create`. -/
def fsSubvolumeCreate (path : String) (fs : Fs) : Option Err × Fs :=
  if (fs.find path).isSome then (some (Err.external "target path already exists"), fs)
  else if (fs.find (filepathDir path)).isNone then
    (some (Err.external "no such file or directory"), fs)
  else (none, fs ++ [(path, Node.subvolume false)])

/-- The directories of a snapshot: every path below `src` reappears below
`target`, a nested subvolume as an empty directory. -/
def snapshotTree (src target : String) (fs : Fs) : Fs :=
  fs.filterMap (fun e =>
    if hasPrefixChars e.1.toList (src.toList ++ ['/']) then
      some (String.mk (target.toList ++ e.1.toList.drop src.toList.length), Node.dir)
    else none)

/-- Where `btrfs subvolume snapshot src dest` puts the snapshot: at `dest`, or
under the source's name inside `dest` when `dest` exists. -/
def snapshotTarget (src dest : String) (fs : Fs) : String :=
  if (fs.find dest).isSome then filepathJoin [dest, filepathBase src] else dest

/-- Modelled from the spec: snapshot-to-writable-clone (`readOnly = false`) and
snapshot-to-readonly-clone (`readOnly = true`), `btrfs subvolume snapshot [-r]`.
The source must be a subvolume; an existing destination directory receives
the snapshot under the source's name. -/
def fsSnapshot (readOnly : Bool) (src dest : String) (fs : Fs) : Option Err × Fs :=
  match fs.find src with
  | some (Node.subvolume _) =>
    let target := snapshotTarget src dest fs
    if (fs.find target).isSome then (some (Err.external "target path already exists"), fs)
    else if (fs.find (filepathDir target)).isNone then
      (some (Err.external "no such file or directory"), fs)
    else (none, fs ++ (target, Node.subvolume readOnly) :: snapshotTree src target fs)
  | _ => (some (Err.external "not a subvolume"), fs)

/-- The storage primitives over the directory tree. -/
def fsBackend : Backend Fs where
  osMkdir := fsMkdir
  snapshotPropertyGet := fsPropertyGet
  subvolumeCreate := fsSubvolumeCreate
  subvolumeSnapshot := fsSnapshot false
  subvolumeSnapshotReadonly := fsSnapshot true

/-- A tree holding only the root directory `/pfs` of the driver. -/
def rootOnlyFs : Fs := [("/pfs", Node.dir)]

/-- The tree after `InitRepository` of repository `r` with shards `0` and `1`
on `rootOnlyFs`. -/
def initialisedFs : Fs := (InitRepository fsBackend ⟨"/pfs"⟩ ⟨"r"⟩ [0, 1] rootOnlyFs).2

/-- The storage primitives a state of the medium must keep true for the
branch precondition to mean something: the probe answers `true` only for a
path that is read-only, and no call `Branch` makes turns a path read-only. -/
structure SealLaws {σ : Type} (B : Backend σ) (readOnlyAt : σ → String → Prop) : Prop where
  probe_sound : ∀ path st,
    readOnlyResult (B.snapshotPropertyGet path st).1 = (true, none) → readOnlyAt st path
  probe_keeps : ∀ path st q, readOnlyAt (B.snapshotPropertyGet path st).2 q → readOnlyAt st q
  mkdir_keeps : ∀ path st q, readOnlyAt (B.osMkdir path st).2 q → readOnlyAt st q
  snapshot_keeps : ∀ src dest st q,
    readOnlyAt (B.subvolumeSnapshot src dest st).2 q → readOnlyAt st q

/-- A path is a read-only snapshot in the directory tree. -/
def Fs.readOnlyAt (fs : Fs) (path : String) : Prop :=
  fs.find path = some (Node.subvolume true)

instance (fs : Fs) (path : String) : Decidable (fs.readOnlyAt path) := by
  unfold Fs.readOnlyAt; infer_instance

/-! ## The PFS API server (`api_server.go`)

The handler `PutFile` and what it calls. Calls to the logger and to the
metrics reporter are left out: they touch neither the stream, the driver nor
the result. The pointers of a request (`File`, its `Commit`, the `Repo` of the
commit) may be nil: such a field is an `Option`, and the code that reads
through a nil pointer panics. A panic in the goroutine of the handler runs the
deferred calls of the handler and then leaves it; a panic in a goroutine
started by `eg.Go` ends the process at once. The driver and the other
collaborators are taken to return from every call. -/

namespace Server

/-- Go constant `concurrentPuts`. -/
def concurrentPuts : Nat := 100

/-- Go struct `pfs.Repo` of the client package. -/
structure Repo where
  Name : String
  deriving DecidableEq, Repr

/-- Go struct `pfs.Commit` of the client package. -/
structure Commit where
  Repo : Option Repo
  ID : String
  deriving DecidableEq, Repr

/-- Go struct `pfs.File` of the client package. -/
structure File where
  Commit : Option Commit
  Path : String
  deriving DecidableEq, Repr

/-- Go enum `pfs.FileType` of the client package. -/
inductive FileType where
  | FILE_TYPE_NONE
  | FILE_TYPE_REGULAR
  | FILE_TYPE_DIR
  deriving DecidableEq, Repr

/-- Go struct `pfs.PutFileRequest`: one message of the incoming stream. -/
structure PutFileRequest where
  File : Option File
  FileType : FileType
  Value : List Byte
  Url : String
  Recursive : Bool
  deriving DecidableEq, Repr

/-- Go `client.NewFile`. -/
def NewFile (repoName commitID path : String) : File :=
  { Commit := some { Repo := some { Name := repoName }, ID := commitID }, Path := path }

/-- The values `file.Commit.Repo.Name` and `file.Commit.ID`; `none` when the
`Commit` of the file or the `Repo` of the commit is nil, where reading them
panics. -/
def File.repoAndCommit (file : File) : Option (String × String) :=
  match file.Commit with
  | none => none
  | some commit =>
    match commit.Repo with
    | none => none
    | some repo => some (repo.Name, commit.ID)

/-- The values `request.File.Commit.Repo.Name` and `request.File.Commit.ID`;
`none` when a pointer on the way is nil. -/
def PutFileRequest.repoAndCommit (request : PutFileRequest) : Option (String × String) :=
  match request.File with
  | none => none
  | some file => file.repoAndCommit

/-- The fields of a parsed `url.URL` that the handler reads. -/
structure URL where
  Scheme : String
  Path : String
  deriving DecidableEq, Repr

/-- An `io.ReadCloser` handed out by a collaborator (the body of an HTTP
response, the reader of an object): the bytes still to be read, the error
`Read` returns once none is left (`io.EOF` for a complete body), and the
result of `Close`. -/
structure Body where
  content : List Byte
  endErr : Err
  closeErr : Option Err
  deriving DecidableEq, Repr

/-- `Read(p)` on a `Body` with `len(p) = len`: the bytes copied into `p` (the
Go result `n` is their number) and the error. -/
def Body.Read (len : Nat) (b : Body) : (List Byte × Option Err) × Body :=
  if b.content.length = 0 then (([], some b.endErr), b)
  else ((b.content.take len, none), { b with content := b.content.drop len })

/-- The incoming stream `pfs.API_PutFileServer`: the messages of the client
that `Recv` has not returned yet, and the error `Recv` returns once none is
left (`io.EOF` after the client closed its side, another error when the
connection broke). -/
structure PutFileServer where
  pending : List PutFileRequest
  closeErr : Err
  deriving DecidableEq, Repr

/-- A call the handler makes on the stream, on the driver or on the object
store, with its result. -/
inductive Event where
  /-- `putFileServer.Recv()`. -/
  | recv (res : Except Err PutFileRequest)
  /-- `putFileServer.SendAndClose(&types.Empty{})`. -/
  | sendAndClose (res : Option Err)
  /-- `a.driver.MakeDirectory(ctx, file)`. -/
  | makeDirectory (file : File) (res : Option Err)
  /-- `a.driver.PutFile(ctx, file, r)`. -/
  | putFile (file : File) (res : Option Err)
  /-- `objClient.Reader(objPath, 0, 0)`; `res` is its error. -/
  | objReader (objPath : String) (res : Option Err)
  deriving DecidableEq

/-- What a call of `PutFile` works on: the incoming stream, the state of the
driver's storage, and the calls made so far. -/
structure World (δ : Type) where
  server : PutFileServer
  drv : δ
  trace : List Event
  deriving DecidableEq

/-- Append a call to the trace. -/
def World.log {δ : Type} (w : World δ) (e : Event) : World δ :=
  { w with trace := w.trace ++ [e] }

/-- How a call of the handler ends. -/
inductive Exit (δ : Type) where
  /-- The call returns `retErr`, in the world `w`. -/
  | returned (retErr : Option Err) (w : World δ)
  /-- The goroutine of the call panicked on a nil pointer; `w` is the world
  when the panic leaves the call, after the deferred calls of the call. -/
  | panicked (w : World δ)
  /-- A goroutine started by `eg.Go` panicked on a nil pointer and the process
  ended, in the world `w`; no deferred call of the handler ran. -/
  | crashed (w : World δ)
  /-- The call never returns. -/
  | blocked
  deriving DecidableEq

/-- How `driver.PutFile` consumes the `io.Reader` it is given: it returns, with
its result and the storage state it leaves, or it calls `Read` with a buffer
of `len` bytes and goes on from the bytes and the error that `Read` gave. -/
inductive WritePlan (δ : Type) where
  | done (res : Option Err) (st : δ)
  | read (len : Nat) (next : List Byte × Option Err → WritePlan δ)

/-- Run a `driver.PutFile` against a reader whose state is `ρ`. -/
def WritePlan.run {δ ρ : Type} (read : Nat → ρ → (List Byte × Option Err) × ρ) :
    WritePlan δ → ρ → (Option Err × δ) × ρ
  | WritePlan.done res st, r => ((res, st), r)
  | WritePlan.read len next, r => (next (read len r).1).run read (read len r).2

/-- The interface `drive.Driver` as far as `PutFile` uses it; its implementation
is a parameter. -/
structure Driver (δ : Type) where
  /-- Go `driver.MakeDirectory(ctx, file)`. -/
  MakeDirectory : File → δ → Option Err × δ
  /-- Go `driver.PutFile(ctx, file, reader)`, from the storage state at the call. -/
  PutFile : File → δ → WritePlan δ

/-- The interface `obj.Client` as far as `putFileObj` uses it. -/
structure ObjClient where
  /-- Go `objClient.Reader(name, 0, 0)`. -/
  Reader : String → Except Err Body
  /-- Go `objClient.Walk(prefix, fn)` for a callback that never fails: the names
  it passes to `fn`, in order, and the error `Walk` returns. -/
  Walk : String → List String × Option Err

/-- The collaborators of the handler. -/
structure Env (δ : Type) where
  driver : Driver δ
  /-- The result of `putFileServer.SendAndClose`. -/
  sendAndClose : Option Err
  /-- Go `url.Parse`. -/
  urlParse : String → Except Err URL
  /-- Go `http.Get`: the body of the response. -/
  httpGet : String → Except Err Body
  /-- Go `obj.NewClientFromURLAndSecret`. -/
  newObjClient : String → Except Err ObjClient

/-- Go `putFileServer.Recv()`. -/
def Recv {δ : Type} (w : World δ) : Except Err PutFileRequest × World δ :=
  match w.server.pending with
  | [] => (.error w.server.closeErr, w.log (Event.recv (.error w.server.closeErr)))
  | request :: rest =>
    (.ok request,
      { w with server := { w.server with pending := rest } }.log (Event.recv (.ok request)))

/-- The loop of `drainFileServer`, at most `fuel` rounds. -/
def drainLoop {δ : Type} : Nat → World δ → World δ
  | 0, w => w
  | fuel + 1, w =>
    match Recv w with
    | (.error _, w) => w
    | (.ok _, w) => drainLoop fuel w

/-- Go `drainFileServer`: `Recv` until it returns an error. One round more
than there are messages left is enough. -/
def drainFileServer {δ : Type} (w : World δ) : World δ :=
  drainLoop (w.server.pending.length + 1) w

/-- Go `bytes.Buffer.Read(p)` with `len(p) = len` on a buffer whose unread
bytes are `buffer`: an empty buffer gives `io.EOF`, or no error when `p` is
empty too; otherwise the first `len` bytes are copied out. -/
def bufferRead (len : Nat) (buffer : List Byte) : (List Byte × Option Err) × List Byte :=
  if buffer.length = 0 then
    if len = 0 then (([], none), []) else (([], some Err.eof), [])
  else ((buffer.take len, none), buffer.drop len)

/-- Go struct `putFileReader`; the field `server` is the stream of the world. -/
structure putFileReader where
  buffer : List Byte
  deriving DecidableEq, Repr

/-- Go `putFileReader.Read(p)` with `len(p) = len`. -/
def putFileReader.Read {δ : Type} (len : Nat) (s : putFileReader × World δ) :
    (List Byte × Option Err) × (putFileReader × World δ) :=
  let r := s.1
  let w := s.2
  if r.buffer.length = 0 then
    match Recv w with
    | (.error err, w) => (([], some err), (r, w))
    | (.ok request, w) =>
      -- buffer.Write cannot error
      let out := bufferRead len (r.buffer ++ request.Value)
      (out.1, ({ buffer := out.2 }, w))
  else
    let out := bufferRead len r.buffer
    (out.1, ({ buffer := out.2 }, w))

/-- A consumer that calls `Read` with buffers of `len` bytes until `Read`
returns an error, as `bufio.Reader.WriteTo` in the driver does: the bytes it
got, the error that ended it (`none` when `fuel` calls saw no error), and the
reader after. -/
def readToError {δ : Type} (len : Nat) :
    Nat → putFileReader × World δ → (List Byte × Option Err) × (putFileReader × World δ)
  | 0, s => (([], none), s)
  | fuel + 1, s =>
    match putFileReader.Read len s with
    | ((bytes, some err), s) => ((bytes, some err), s)
    | ((bytes, none), s) =>
      let rest := readToError len fuel s
      ((bytes ++ rest.1.1, rest.1.2), rest.2)

/-- The closure `put` of `putFileObj`. `retErr` is the named result of
`putFileObj`, which the deferred `Close` writes to. The result is the value
`put` returns with `retErr` after it, or `none` when `put` panics on a nil
pointer of the request, and the world after it. -/
def put {δ : Type} (env : Env δ) (objClient : ObjClient) (request : PutFileRequest)
    (filePath objPath : String) (retErr : Option Err) (w : World δ) :
    Option (Option Err × Option Err) × World δ :=
  match objClient.Reader objPath with
  | .error err => (some (some err, retErr), w.log (Event.objReader objPath (some err)))
  | .ok r =>
    let w := w.log (Event.objReader objPath none)
    -- client.NewFile(request.File.Commit.Repo.Name, request.File.Commit.ID, filePath)
    match request.repoAndCommit with
    | none => (none, w)
    | some (repoName, commitID) =>
      let file := NewFile repoName commitID filePath
      let out := (env.driver.PutFile file w.drv).run Body.Read r
      let w := { w with drv := out.1.2 }.log (Event.putFile file out.1.1)
      let closeErr := out.2.closeErr
      let retErr := if closeErr ≠ none ∧ retErr = none then closeErr else retErr
      (some (out.1.1, retErr), w)

/-! ### The recursive import of `putFileObj`

`objClient.Walk` calls the callback once for each name, and the callback
starts a goroutine with `eg.Go`; the goroutines run `put` while the walk goes
on. The import is a machine whose steps are the three statements of the
callback and the return of a goroutine, taken in the order a scheduler
picks. A goroutine is running from its `eg.Go` until it returns; the calls
of its `put` are entered in the trace when it returns. A goroutine that
panics ends the process: after it nothing moves. -/

/-- Where the callback of `Walk` stands. -/
inductive WalkPc where
  /-- Between two calls of the callback, or before the first. -/
  | idle
  /-- After `sem <- struct{}{}`, before `eg.Go` for the name. -/
  | acquired (name : String)
  /-- After `eg.Go`, before `<-sem`. -/
  | spawned
  deriving DecidableEq, Repr

/-- The state of a recursive import. -/
structure ImportState (δ : Type) where
  /-- The names `Walk` has still to pass to the callback. -/
  todo : List String
  pc : WalkPc
  /-- The number of elements in the channel `sem`. -/
  sem : Nat
  /-- The goroutines started by `eg.Go` that have not returned: the `name` each
  of them was started for. -/
  running : List String
  /-- The first error a goroutine returned, kept by the `errgroup.Group`. -/
  egErr : Option Err
  /-- The named result `retErr` of `putFileObj`. -/
  retErr : Option Err
  w : World δ
  /-- A goroutine has panicked: the process has ended. -/
  crashed : Bool

/-- A step of the import the scheduler can pick: the next statement of the
callback of `Walk`, or the goroutine at position `i` of `running` returning. -/
inductive Action where
  | walk
  | finish (i : Nat)
  deriving DecidableEq, Repr

/-- One step of the import; `none` when the step cannot be taken now (a send
on a full channel or a receive on an empty one blocks, the walk is over, no
goroutine stands at that position, the process has ended). `path` is the
prefix handed to `Walk`. -/
def importStep {δ : Type} (env : Env δ) (objClient : ObjClient) (request : PutFileRequest)
    (path : String) (a : Action) (s : ImportState δ) : Option (ImportState δ) :=
  if s.crashed then none
  else
    match a with
    | Action.walk =>
      match s.pc with
      | WalkPc.idle =>
        match s.todo with
        | [] => none
        | name :: rest =>
          -- sem <- struct{}{}
          if s.sem < concurrentPuts then
            some { s with todo := rest, pc := WalkPc.acquired name, sem := s.sem + 1 }
          else none
      | WalkPc.acquired name =>
        -- eg.Go(func() error { return put(filepath.Join(...), name) })
        some { s with pc := WalkPc.spawned, running := s.running ++ [name] }
      | WalkPc.spawned =>
        -- <-sem
        if 0 < s.sem then some { s with pc := WalkPc.idle, sem := s.sem - 1 } else none
    | Action.finish i =>
      match s.running[i]? with
      | none => none
      | some name =>
        -- put(filepath.Join(request.File.Path, strings.TrimPrefix(name, path)), name)
        match request.File with
        | none => some { s with crashed := true }
        | some file =>
          let out := put env objClient request
            (filepathJoin [file.Path, stringsTrimPrefix name path]) name s.retErr s.w
          match out.1 with
          | none => some { s with w := out.2, crashed := true }
          | some res =>
            some { s with
              running := s.running.eraseIdx i
              egErr := if s.egErr = none then res.1 else s.egErr
              retErr := res.2
              w := out.2 }

/-- The steps a scheduler picked, in order; a step that cannot be taken when
its turn comes is skipped. -/
def runSchedule {δ : Type} (env : Env δ) (objClient : ObjClient) (request : PutFileRequest)
    (path : String) : List Action → ImportState δ → ImportState δ
  | [], s => s
  | a :: rest, s =>
    match importStep env objClient request path a s with
    | some s => runSchedule env objClient request path rest s
    | none => runSchedule env objClient request path rest s

/-- The walk is over and every goroutine has returned: `eg.Wait()` returns. -/
def ImportState.finished {δ : Type} (s : ImportState δ) : Bool :=
  s.todo.isEmpty && s.pc = WalkPc.idle && s.running.isEmpty

/-- The rest of an import after the schedule: the walk goes on while it can,
then the goroutines return, oldest first, until the import is over or the
process has ended. `none` when nothing can move and the import is not over
(`eg.Wait()` never returns), or when `fuel` steps were not enough. -/
def completeImport {δ : Type} (env : Env δ) (objClient : ObjClient) (request : PutFileRequest)
    (path : String) : Nat → ImportState δ → Option (ImportState δ)
  | 0, s => if s.finished || s.crashed then some s else none
  | fuel + 1, s =>
    match importStep env objClient request path Action.walk s with
    | some s => completeImport env objClient request path fuel s
    | none =>
      match importStep env objClient request path (Action.finish 0) s with
      | some s => completeImport env objClient request path fuel s
      | none => if s.finished || s.crashed then some s else none

/-- The start of a recursive import of `names` in the world `w`. -/
def importStart {δ : Type} (names : List String) (w : World δ) : ImportState δ :=
  { todo := names, pc := WalkPc.idle, sem := 0, running := [], egErr := none, retErr := none,
    w := w, crashed := false }

/-- Go `apiServer.putFileObj`. `sched` is the order in which the scheduler
lets the walk and the goroutines of a recursive import move. -/
def putFileObj {δ : Type} (env : Env δ) (sched : List Action) (objClient : ObjClient)
    (request : PutFileRequest) (url : URL) (w : World δ) : Exit δ :=
  if request.Recursive then
    let path := stringsTrimPrefix url.Path "/"
    -- the error `Walk` returns is dropped
    let names := (objClient.Walk path).1
    -- return eg.Wait()
    match completeImport env objClient request path (4 * names.length)
        (runSchedule env objClient request path sched (importStart names w)) with
    | none => Exit.blocked
    | some s => if s.crashed then Exit.crashed s.w else Exit.returned s.egErr s.w
  else
    -- return put(request.File.Path, url.Path)
    match request.File with
    | none => Exit.panicked w
    | some file =>
      let out := put env objClient request file.Path url.Path none w
      match out.1 with
      | none => Exit.panicked out.2
      | some res => Exit.returned res.1 out.2

/-- The body of `apiServer.PutFile` from the first `Recv` to its `return` or
its panic, with the deferred `resp.Body.Close()`; the `retErr` of a return is
its value when the deferred `SendAndClose` starts. -/
def putFileBody {δ : Type} (env : Env δ) (sched : List Action) (w : World δ) : Exit δ :=
  match Recv w with
  | (.error err, w) =>
    -- a receive error is returned; io.EOF is tolerated: return nil
    if err ≠ Err.eof then Exit.returned (some err) w else Exit.returned none w
  | (.ok request, w) =>
    -- request.File.Path = path.Clean(request.File.Path)
    match request.File with
    | none => Exit.panicked w
    | some file =>
      let file : File := { file with Path := pathClean file.Path }
      let request := { request with File := some file }
      if request.FileType = FileType.FILE_TYPE_DIR then
        if request.Value.length > 0 then Exit.returned (some Err.dirWithValue) w
        else
          let out := env.driver.MakeDirectory file w.drv
          let w := { w with drv := out.2 }.log (Event.makeDirectory file out.1)
          Exit.returned out.1 w
      else if request.Url ≠ "" then
        match env.urlParse request.Url with
        | .error err => Exit.returned (some err) w
        | .ok url =>
          if url.Scheme = "http" ∨ url.Scheme = "https" then
            match env.httpGet request.Url with
            | .error err => Exit.returned (some err) w
            | .ok body =>
              let out := (env.driver.PutFile file w.drv).run Body.Read body
              let w := { w with drv := out.1.2 }.log (Event.putFile file out.1.1)
              let retErr := out.1.1
              -- deferred: resp.Body.Close()
              let closeErr := out.2.closeErr
              Exit.returned (if closeErr ≠ none ∧ retErr = none then closeErr else retErr) w
          else
            match env.newObjClient request.Url with
            | .error err => Exit.returned (some err) w
            | .ok objClient => putFileObj env sched objClient request url w
      else
        -- reader.buffer.Write(request.Value) cannot error
        let reader : putFileReader := { buffer := request.Value }
        let plan := env.driver.PutFile file w.drv
        let out := plan.run putFileReader.Read (reader, w)
        let w := { out.2.2 with drv := out.1.2 }.log (Event.putFile file out.1.1)
        Exit.returned out.1.1 w

/-- Go `apiServer.PutFile`: the body, then the deferred calls in the reverse
order of their `defer`: `SendAndClose`, whose error becomes the result when
there is none yet, and `drainFileServer`. They run when the body returns and
when the goroutine of the handler panics; they do not run when the process
has ended. -/
def PutFile {δ : Type} (env : Env δ) (sched : List Action) (w : World δ) : Exit δ :=
  match putFileBody env sched w with
  | Exit.returned retErr w =>
    let w := w.log (Event.sendAndClose env.sendAndClose)
    let retErr := if env.sendAndClose ≠ none ∧ retErr = none then env.sendAndClose else retErr
    Exit.returned retErr (drainFileServer w)
  | Exit.panicked w =>
    Exit.panicked (drainFileServer (w.log (Event.sendAndClose env.sendAndClose)))
  | Exit.crashed w => Exit.crashed w
  | Exit.blocked => Exit.blocked

/-- Go `apiServer.FlushCommit`: `return nil, fmt.Errorf("TODO")`. The request
names the commits to flush from and the repositories to flush to. -/
def FlushCommit (_commits : List Commit) (_toRepos : List Repo) :
    Option (List Commit) × Option Err :=
  (none, some Err.todo)

/-! ### Concrete collaborators, for running the handler -/

/-- A `driver.PutFile` that copies the reader to the file as the btrfs driver
does with `bufio.NewReader(reader).WriteTo(file)`: it calls `Read` with a
buffer of 4096 bytes until `Read` returns an error, and `io.EOF` ends the copy
without error. `acc` is what was copied so far; the storage state lists the
files written, with their content. -/
def copyPlan (file : File) (st : List (File × List Byte)) :
    Nat → List Byte → WritePlan (List (File × List Byte))
  | 0, acc => WritePlan.done (some (Err.external "copy still running")) (st ++ [(file, acc)])
  | fuel + 1, acc =>
    WritePlan.read 4096 (fun out =>
      match out.2 with
      | none => copyPlan file st fuel (acc ++ out.1)
      | some err =>
        WritePlan.done (if err = Err.eof then none else some err) (st ++ [(file, acc ++ out.1)]))

/-- A driver that keeps the files written in a list. -/
def listDriver : Driver (List (File × List Byte)) where
  MakeDirectory file st := (none, st ++ [(file, [])])
  PutFile file st := copyPlan file st 64 []

/-- An object store with the objects `pre/a` and `pre/c`, of two bytes each,
whose listing also reports the name `pre/b`, an object that cannot be read. -/
def sampleStore : ObjClient where
  Reader name :=
    if name = "pre/b" then .error (Err.external "no such object")
    else .ok { content := [1, 2], endErr := Err.eof, closeErr := none }
  Walk _ := (["pre/a", "pre/b", "pre/c"], none)

/-- Collaborators for a run: the list driver, a `SendAndClose` that succeeds,
URLs of the form `scheme://path` with scheme `s3`, and the sample store. -/
def sampleEnv : Env (List (File × List Byte)) where
  driver := listDriver
  sendAndClose := none
  urlParse u := .ok { Scheme := "s3", Path := stringsTrimPrefix u "s3://" }
  httpGet _ := .error (Err.external "no network")
  newObjClient _ := .ok sampleStore

/-- A message of the stream for file `f` of commit `c` in repository `r`,
carrying the bytes `value`. -/
def chunk (value : List Byte) : PutFileRequest :=
  { File := some (NewFile "r" "c" "f"), FileType := FileType.FILE_TYPE_REGULAR, Value := value,
    Url := "", Recursive := false }

/-! ### Notions used to state what an import does -/

/-- The name read, for a call that opens an object. -/
def Event.readerName : Event → Option String
  | Event.objReader objPath _ => some objPath
  | _ => none

/-- The file written, for a call of the driver's `PutFile`. -/
def Event.writtenFile : Event → Option File
  | Event.putFile file _ => some file
  | _ => none

/-- The call is made on the incoming stream. -/
def Event.onStream : Event → Bool
  | Event.recv _ => true
  | Event.sendAndClose _ => true
  | _ => false

/-- The reader of the object opens. -/
def ObjClient.opens (objClient : ObjClient) (name : String) : Bool :=
  match objClient.Reader name with
  | .ok _ => true
  | .error _ => false

/-- The file a recursive import writes for the name `name` under the prefix
`path`, for a request whose file has the path `filePath` in the commit
`commitID` of the repository `repoName`:
`filepath.Join(filePath, strings.TrimPrefix(name, path))` in that commit. -/
def destination (repoName commitID filePath path name : String) : File :=
  NewFile repoName commitID (filepathJoin [filePath, stringsTrimPrefix name path])

/-- The name the callback holds between its send on `sem` and its `eg.Go`. -/
def WalkPc.held : WalkPc → List String
  | WalkPc.acquired name => [name]
  | _ => []

/-- The names whose `put` has not run yet: those of the running goroutines,
the one the callback holds, and those the walk has still to report. -/
def ImportState.notRun {δ : Type} (s : ImportState δ) : List String :=
  s.running ++ (s.pc.held ++ s.todo)

/-- The number of steps an import has left. -/
def ImportState.stepsLeft {δ : Type} (s : ImportState δ) : Nat :=
  4 * s.todo.length +
    (match s.pc with
      | WalkPc.idle => 0
      | WalkPc.acquired _ => 3
      | WalkPc.spawned => 1) + s.running.length

/-- What every state of a recursive import satisfies when the request carries
its `File`, with the path `filePath`, and through it the commit `commitID` of
the repository `repoName`; `names` are the names the walk reports and `w0` is
the world the import started in. No goroutine has panicked; the channel holds
one element exactly while the callback is between its send and its receive;
the stream is untouched; and the calls made since the start are calls on the
object store and the driver, which together with the names not run yet
account for every name once: one opening of a reader per name, and one write
to its destination per name whose reader opens. -/
structure ImportInv {δ : Type} (objClient : ObjClient) (repoName commitID filePath : String)
    (path : String) (names : List String) (w0 : World δ) (s : ImportState δ) : Prop where
  crashed_eq : s.crashed = false
  sem_eq : s.sem = if s.pc = WalkPc.idle then 0 else 1
  server_eq : s.w.server = w0.server
  calls : ∃ ev, s.w.trace = w0.trace ++ ev ∧ (∀ e ∈ ev, e.onStream = false) ∧
    List.Perm (ev.filterMap Event.readerName ++ s.notRun) names ∧
    List.Perm
      (ev.filterMap Event.writtenFile ++
        (s.notRun.filter objClient.opens).map (destination repoName commitID filePath path))
      ((names.filter objClient.opens).map (destination repoName commitID filePath path))

/-- The names `pre/0`, `pre/1`, ... up to `n` of them. -/
def manyNames (n : Nat) : List String :=
  (List.range n).map (fun i => "pre/" ++ toString i)

/-- An object store whose listing breaks off: the walk reports the name
`pre/a`, whose object can be read, and then returns an error. -/
def brokenListingStore : ObjClient where
  Reader _ := .ok { content := [1, 2], endErr := Err.eof, closeErr := none }
  Walk _ := (["pre/a"], some (Err.external "listing failed"))

/-- The call is one on the object store or the driver that returned an error. -/
def Event.failed : Event → Bool
  | Event.objReader _ (some _) => true
  | Event.putFile _ (some _) => true
  | _ => false

end Server
/-! ## Theorems about the btrfs driver -/

theorem isReadOnly_traced {σ : Type} (B : Backend σ) (path : String) (st : σ) (tr : List Call) :
    isReadOnly B.traced path (st, tr) =
      (readOnlyResult (B.snapshotPropertyGet path st).1,
        ((B.snapshotPropertyGet path st).2,
          tr ++ [Call.snapshotPropertyGet path (B.snapshotPropertyGet path st).1])) := rfl

theorem subvolumeSnapshot_traced {σ : Type} (B : Backend σ) (src dest : String) (st : σ)
    (tr : List Call) :
    B.traced.subvolumeSnapshot src dest (st, tr) =
      ((B.subvolumeSnapshot src dest st).1,
        ((B.subvolumeSnapshot src dest st).2,
          tr ++ [Call.subvolumeSnapshot src dest (B.subvolumeSnapshot src dest st).1])) := rfl

theorem osMkdir_traced {σ : Type} (B : Backend σ) (path : String) (st : σ) (tr : List Call) :
    B.traced.osMkdir path (st, tr) =
      ((B.osMkdir path st).1,
        ((B.osMkdir path st).2, tr ++ [Call.osMkdir path (B.osMkdir path st).1])) := rfl

/-- One round of the loop of `Branch`, by the outcome of the probe and of the
snapshot. -/
theorem branchShards_cons {σ : Type} (B : Backend σ) (d : driver) (commit newCommit : Commit)
    (shard : Int) (rest : List Int) (st : σ) :
    branchShards B d commit newCommit (shard :: rest) st =
      match readOnlyResult (B.snapshotPropertyGet (d.commitPath commit shard) st).1 with
      | (_, some err) => (some err, (B.snapshotPropertyGet (d.commitPath commit shard) st).2)
      | (false, none) =>
        (some (Err.notReadOnly commit), (B.snapshotPropertyGet (d.commitPath commit shard) st).2)
      | (true, none) =>
        match B.subvolumeSnapshot (d.commitPath commit shard) (d.commitPath newCommit shard)
            (B.snapshotPropertyGet (d.commitPath commit shard) st).2 with
        | (some err, st2) => (some err, st2)
        | (none, st2) => branchShards B d commit newCommit rest st2 := by
  simp only [branchShards, isReadOnly]
  rcases readOnlyResult (B.snapshotPropertyGet (d.commitPath commit shard) st).1 with ⟨b, e⟩
  cases b <;> cases e <;> rfl

theorem branchShards_sealed {σ : Type} (B : Backend σ) (ro : σ → String → Prop)
    (L : SealLaws B ro) (d : driver) (commit newCommit : Commit) :
    ∀ (shards : List Int) (st : σ) (tr : List Call),
      (∀ src dest res,
        Call.subvolumeSnapshot src dest res ∈
            (branchShards B.traced d commit newCommit shards (st, tr)).2.2 →
          Call.subvolumeSnapshot src dest res ∈ tr ∨ ro st src) ∧
      ((∃ shard ∈ shards, ¬ ro st (d.commitPath commit shard)) →
        (branchShards B.traced d commit newCommit shards (st, tr)).1 ≠ none) := by
  intro shards
  induction shards with
  | nil =>
    intro st tr
    refine ⟨fun src dest res h => Or.inl h, ?_⟩
    rintro ⟨shard, hmem, _⟩
    simp at hmem
  | cons shard rest ih =>
    intro st tr
    rw [branchShards_cons]
    have hprobe := L.probe_sound (d.commitPath commit shard) st
    have hkeep1 := L.probe_keeps (d.commitPath commit shard) st
    simp only [show (B.traced.snapshotPropertyGet (d.commitPath commit shard) (st, tr)) =
      ((B.snapshotPropertyGet (d.commitPath commit shard) st).1,
        ((B.snapshotPropertyGet (d.commitPath commit shard) st).2,
          tr ++ [Call.snapshotPropertyGet (d.commitPath commit shard)
            (B.snapshotPropertyGet (d.commitPath commit shard) st).1])) from rfl]
    rcases hres : readOnlyResult (B.snapshotPropertyGet (d.commitPath commit shard) st).1
      with ⟨b, e⟩
    cases e with
    | some err =>
      simp only [List.mem_append, List.mem_singleton, reduceCtorEq, or_false, ne_eq,
        not_false_eq_true, implies_true, and_true]
      exact fun _ _ _ h => Or.inl h
    | none =>
      cases b with
      | false =>
        simp only [List.mem_append, List.mem_singleton, reduceCtorEq, or_false, ne_eq,
          not_false_eq_true, implies_true, and_true]
        exact fun _ _ _ h => Or.inl h
      | true =>
        have hro : ro st (d.commitPath commit shard) := hprobe hres
        simp only [subvolumeSnapshot_traced]
        have hkeep2 := L.snapshot_keeps (d.commitPath commit shard)
          (d.commitPath newCommit shard) (B.snapshotPropertyGet (d.commitPath commit shard) st).2
        rcases hsnap : (B.subvolumeSnapshot (d.commitPath commit shard)
          (d.commitPath newCommit shard)
          (B.snapshotPropertyGet (d.commitPath commit shard) st).2) with ⟨r, st2⟩
        rw [hsnap] at hkeep2
        cases r with
        | some err =>
          simp only [ne_eq, reduceCtorEq, not_false_eq_true, implies_true, and_true]
          intro src dest res hmem
          simp only [List.append_assoc, List.mem_append, List.mem_cons, List.mem_singleton,
            reduceCtorEq, Call.subvolumeSnapshot.injEq, List.not_mem_nil, or_false,
            false_or] at hmem
          rcases hmem with h | ⟨h, _, _⟩
          · exact Or.inl h
          · exact Or.inr (h ▸ hro)
        | none =>
          simp only
          have ih2 := ih st2 ((tr ++ [Call.snapshotPropertyGet (d.commitPath commit shard)
            (B.snapshotPropertyGet (d.commitPath commit shard) st).1]) ++
            [Call.subvolumeSnapshot (d.commitPath commit shard)
              (d.commitPath newCommit shard) none])
          refine ⟨?_, ?_⟩
          · intro src dest res hmem
            rcases ih2.1 src dest res hmem with h | h
            · simp only [List.append_assoc, List.mem_append, List.mem_cons, List.mem_singleton,
                reduceCtorEq, Call.subvolumeSnapshot.injEq, List.not_mem_nil, or_false,
                false_or] at h
              rcases h with h | ⟨h, _, _⟩
              · exact Or.inl h
              · exact Or.inr (h ▸ hro)
            · exact Or.inr (hkeep1 _ (hkeep2 _ h))
          · rintro ⟨s, hmem, hs⟩
            apply ih2.2
            rcases List.mem_cons.mp hmem with h | h
            · exact absurd hro (h ▸ hs)
            · exact ⟨s, h, fun hc => hs (hkeep1 _ (hkeep2 _ hc))⟩

/-! ### The log changes nothing

The driver run on `B.traced` returns what it returns on `B` and leaves the
same storage state. -/

theorem branchShards_traced_erase {σ : Type} (B : Backend σ) (d : driver)
    (commit newCommit : Commit) :
    ∀ (shards : List Int) (st : σ) (tr : List Call),
      ((branchShards B.traced d commit newCommit shards (st, tr)).1,
        (branchShards B.traced d commit newCommit shards (st, tr)).2.1) =
      branchShards B d commit newCommit shards st := by
  intro shards
  induction shards with
  | nil =>
    intro st tr
    rfl
  | cons shard rest ih =>
    intro st tr
    rw [branchShards_cons, branchShards_cons]
    simp only [show (B.traced.snapshotPropertyGet (d.commitPath commit shard) (st, tr)) =
      ((B.snapshotPropertyGet (d.commitPath commit shard) st).1,
        ((B.snapshotPropertyGet (d.commitPath commit shard) st).2,
          tr ++ [Call.snapshotPropertyGet (d.commitPath commit shard)
            (B.snapshotPropertyGet (d.commitPath commit shard) st).1])) from rfl]
    rcases readOnlyResult (B.snapshotPropertyGet (d.commitPath commit shard) st).1
      with ⟨b, e⟩
    cases e with
    | some err => cases b <;> rfl
    | none =>
      cases b with
      | false => rfl
      | true =>
        simp only [subvolumeSnapshot_traced]
        rcases B.subvolumeSnapshot (d.commitPath commit shard)
          (d.commitPath newCommit shard)
          (B.snapshotPropertyGet (d.commitPath commit shard) st).2 with ⟨r, st2⟩
        cases r with
        | some err => rfl
        | none => exact ih st2 _

theorem Branch_traced_erase {σ : Type} (B : Backend σ) (d : driver) (newID : String)
    (commit : Commit) (newCommit : Option Commit) (shards : List Int) (st : σ)
    (tr : List Call) :
    ((Branch B.traced d newID commit newCommit shards (st, tr)).1,
      (Branch B.traced d newID commit newCommit shards (st, tr)).2.1) =
    Branch B d newID commit newCommit shards st := by
  unfold Branch
  simp only [osMkdir_traced]
  generalize (match newCommit with
    | none => ({ Repository := commit.Repository, Id := newID } : Commit)
    | some c => c) = nc
  rcases B.osMkdir (d.commitPathNoShard nc) st with ⟨r, st1⟩
  cases r with
  | some err => rfl
  | none =>
    simp only
    have h := branchShards_traced_erase B d commit nc shards st1
      (tr ++ [Call.osMkdir (d.commitPathNoShard nc) none])
    rcases hb : branchShards B.traced d commit nc shards
      (st1, tr ++ [Call.osMkdir (d.commitPathNoShard nc) none]) with ⟨r2, st2, tr2⟩
    rw [hb] at h
    rw [← h]
    cases r2 <;> rfl

theorem initShards_traced_erase {σ : Type} (B : Backend σ) (d : driver)
    (root initial : Commit) :
    ∀ (shards : List Int) (st : σ) (tr : List Call),
      ((initShards B.traced d root initial shards (st, tr)).1,
        (initShards B.traced d root initial shards (st, tr)).2.1) =
      initShards B d root initial shards st := by
  intro shards
  induction shards with
  | nil =>
    intro st tr
    rfl
  | cons shard rest ih =>
    intro st tr
    simp only [initShards,
      show B.traced.subvolumeCreate (d.commitPath root shard) (st, tr) =
        ((B.subvolumeCreate (d.commitPath root shard) st).1,
          ((B.subvolumeCreate (d.commitPath root shard) st).2,
            tr ++ [Call.subvolumeCreate (d.commitPath root shard)
              (B.subvolumeCreate (d.commitPath root shard) st).1])) from rfl]
    rcases B.subvolumeCreate (d.commitPath root shard) st with ⟨r, st1⟩
    cases r with
    | some err => rfl
    | none =>
      simp only [
        show ∀ tr2, B.traced.subvolumeSnapshotReadonly (d.commitPath root shard)
            (d.commitPath initial shard) (st1, tr2) =
          ((B.subvolumeSnapshotReadonly (d.commitPath root shard)
              (d.commitPath initial shard) st1).1,
            ((B.subvolumeSnapshotReadonly (d.commitPath root shard)
                (d.commitPath initial shard) st1).2,
              tr2 ++ [Call.subvolumeSnapshotReadonly (d.commitPath root shard)
                (d.commitPath initial shard)
                (B.subvolumeSnapshotReadonly (d.commitPath root shard)
                  (d.commitPath initial shard) st1).1])) from fun _ => rfl]
      rcases B.subvolumeSnapshotReadonly (d.commitPath root shard)
        (d.commitPath initial shard) st1 with ⟨r2, st2⟩
      cases r2 with
      | some err => rfl
      | none => exact ih st2 _

theorem InitRepository_traced_erase {σ : Type} (B : Backend σ) (d : driver)
    (repository : Repository) (shards : List Int) (st : σ) (tr : List Call) :
    ((InitRepository B.traced d repository shards (st, tr)).1,
      (InitRepository B.traced d repository shards (st, tr)).2.1) =
    InitRepository B d repository shards st := by
  unfold InitRepository
  simp only [osMkdir_traced]
  rcases B.osMkdir (d.repositoryPath repository) st with ⟨r1, st1⟩
  cases r1 with
  | some err => rfl
  | none =>
    simp only [osMkdir_traced]
    rcases B.osMkdir (d.commitPathNoShard ⟨repository, SystemRootCommitID⟩) st1
      with ⟨r2, st2⟩
    cases r2 with
    | some err => rfl
    | none =>
      simp only [osMkdir_traced]
      rcases B.osMkdir (d.commitPathNoShard ⟨repository, InitialCommitID⟩) st2
        with ⟨r3, st3⟩
      cases r3 with
      | some err => rfl
      | none => exact initShards_traced_erase B d _ _ shards st3 _

/-! ### The directory tree keeps the laws of the branch precondition -/

theorem Fs.find_append (fs ext : Fs) (q : String) :
    Fs.find (fs ++ ext) q = match Fs.find fs q with
      | some n => some n
      | none => Fs.find ext q := by
  induction fs with
  | nil => simp [Fs.find]
  | cons e rest ih =>
    obtain ⟨p, n⟩ := e
    by_cases h : p = q
    · simp [Fs.find, h]
    · simp [Fs.find, h, ih]

theorem Fs.find_mem (ext : Fs) (q : String) (n : Node) (h : Fs.find ext q = some n) :
    (q, n) ∈ ext := by
  induction ext with
  | nil => simp [Fs.find] at h
  | cons e rest ih =>
    obtain ⟨p, m⟩ := e
    by_cases hp : p = q
    · simp [Fs.find, hp] at h
      simp [hp, h]
    · simp [Fs.find, hp] at h
      exact List.mem_cons_of_mem _ (ih h)

/-- Paths added behind a tree, none of them a read-only subvolume, make no
path read-only. -/
theorem Fs.readOnlyAt_append (fs ext : Fs) (q : String)
    (hext : ∀ e ∈ ext, e.2 ≠ Node.subvolume true) (h : (fs ++ ext).readOnlyAt q) :
    fs.readOnlyAt q := by
  unfold Fs.readOnlyAt at h ⊢
  rw [Fs.find_append] at h
  cases hf : Fs.find fs q with
  | some n => simpa [hf] using h
  | none =>
    simp only [hf] at h
    exact absurd rfl (hext _ (Fs.find_mem ext q _ h))

theorem snapshotTree_dir (src target : String) (fs : Fs) :
    ∀ e ∈ snapshotTree src target fs, e.2 ≠ Node.subvolume true := by
  intro e he
  unfold snapshotTree at he
  rw [List.mem_filterMap] at he
  obtain ⟨a, _, ha⟩ := he
  split at ha
  · cases ha
    simp
  · cases ha

theorem fsPropertyGet_state (path : String) (fs : Fs) : (fsPropertyGet path fs).2 = fs := by
  unfold fsPropertyGet
  split <;> rfl

theorem fsBackend_sealLaws : SealLaws fsBackend Fs.readOnlyAt where
  probe_sound := by
    intro path st h
    show Fs.find st path = some (Node.subvolume true)
    change readOnlyResult (fsPropertyGet path st).1 = (true, none) at h
    unfold fsPropertyGet at h
    cases hf : Fs.find st path with
    | none => simp [hf, readOnlyResult] at h
    | some n =>
      cases n with
      | dir => simp [hf, readOnlyResult] at h
      | subvolume ro =>
        cases ro with
        | true => rfl
        | false =>
          simp only [hf] at h
          exact absurd h (by decide)
  probe_keeps := by
    intro path st q h
    change ((fsPropertyGet path st).2).readOnlyAt q at h
    rwa [fsPropertyGet_state] at h
  mkdir_keeps := by
    intro path st q h
    change ((fsMkdir path st).2).readOnlyAt q at h
    unfold fsMkdir at h
    split at h
    · exact h
    · split at h
      · exact h
      · exact Fs.readOnlyAt_append st _ q (by simp) h
  snapshot_keeps := by
    intro src dest st q h
    change ((fsSnapshot false src dest st).2).readOnlyAt q at h
    unfold fsSnapshot at h
    generalize snapshotTarget src dest st = target at h
    split at h
    · simp only at h
      split at h
      · exact h
      · split at h
        · exact h
        · refine Fs.readOnlyAt_append st _ q ?_ h
          intro e he
          rcases List.mem_cons.mp he with h1 | h1
          · simp [h1]
          · exact snapshotTree_dir _ _ _ e h1
    · exact h

/-! ### `Branch` -/

/-- The tree after `InitRepository` of repository `r` with shards `0` and `1`:
the system-root volumes are writable, those of the initial commit are
read-only snapshots. -/
theorem initialisedFs_eq :
    InitRepository fsBackend ⟨"/pfs"⟩ ⟨"r"⟩ [0, 1] rootOnlyFs =
      (none, [("/pfs", Node.dir), ("/pfs/r", Node.dir), ("/pfs/r/__root__", Node.dir),
        ("/pfs/r/scratch", Node.dir), ("/pfs/r/__root__/0", Node.subvolume false),
        ("/pfs/r/scratch/0", Node.subvolume true), ("/pfs/r/__root__/1", Node.subvolume false),
        ("/pfs/r/scratch/1", Node.subvolume true)]) := by
  decide

/-- The calls of the loop of `Branch`: what it appends to the log. Every
snapshot directly follows the probe of its source, which answered `true`; a
probe with another answer is the last call; and a run that ends without error
took the snapshots of the shards, one each, in the order of the visit. -/
theorem branchShards_calls {σ : Type} (B : Backend σ) (d : driver) (commit nc : Commit) :
    ∀ (shards : List Int) (st : σ) (tr : List Call), ∃ calls,
      (branchShards B.traced d commit nc shards (st, tr)).2.2 = tr ++ calls ∧
      (∀ l1 l2 src dest res, calls = l1 ++ Call.subvolumeSnapshot src dest res :: l2 →
        ∃ l0 probe shard, l1 = l0 ++ [Call.snapshotPropertyGet src probe] ∧
          readOnlyResult probe = (true, none) ∧ shard ∈ shards ∧
          src = d.commitPath commit shard ∧ dest = d.commitPath nc shard) ∧
      (∀ l1 l2 path probe, calls = l1 ++ Call.snapshotPropertyGet path probe :: l2 →
        readOnlyResult probe ≠ (true, none) → l2 = []) ∧
      ((branchShards B.traced d commit nc shards (st, tr)).1 = none →
        calls.filterMap Call.writableSnapshot =
          shards.map (fun s => (d.commitPath commit s, d.commitPath nc s, none))) := by
  intro shards
  induction shards with
  | nil =>
    intro st tr
    refine ⟨[], by simp [branchShards], ?_, ?_, ?_⟩
    · intro l1 l2 src dest res h
      simp at h
    · intro l1 l2 path probe h
      simp at h
    · intro _
      rfl
  | cons shard rest ih =>
    intro st tr
    rw [branchShards_cons]
    simp only [show (B.traced.snapshotPropertyGet (d.commitPath commit shard) (st, tr)) =
      ((B.snapshotPropertyGet (d.commitPath commit shard) st).1,
        ((B.snapshotPropertyGet (d.commitPath commit shard) st).2,
          tr ++ [Call.snapshotPropertyGet (d.commitPath commit shard)
            (B.snapshotPropertyGet (d.commitPath commit shard) st).1])) from rfl]
    generalize hout : (B.snapshotPropertyGet (d.commitPath commit shard) st).1 = out
    generalize (B.snapshotPropertyGet (d.commitPath commit shard) st).2 = st1
    have single : ∀ (h : readOnlyResult out ≠ (true, none)),
        (∀ l1 l2 src dest res,
          [Call.snapshotPropertyGet (d.commitPath commit shard) out] =
            l1 ++ Call.subvolumeSnapshot src dest res :: l2 →
          ∃ l0 probe s, l1 = l0 ++ [Call.snapshotPropertyGet src probe] ∧
            readOnlyResult probe = (true, none) ∧ s ∈ shard :: rest ∧
            src = d.commitPath commit s ∧ dest = d.commitPath nc s) ∧
        (∀ l1 l2 path probe,
          [Call.snapshotPropertyGet (d.commitPath commit shard) out] =
            l1 ++ Call.snapshotPropertyGet path probe :: l2 →
          readOnlyResult probe ≠ (true, none) → l2 = []) := by
      intro _
      constructor
      · intro l1 l2 src dest res h
        rcases l1 with _ | ⟨x, l1⟩ <;> simp at h
      · intro l1 l2 path probe h _
        rcases l1 with _ | ⟨x, l1⟩ <;> simp at h
        exact h.2
    rcases hres : readOnlyResult out with ⟨b, e⟩
    cases e with
    | some err =>
      have hne : readOnlyResult out ≠ (true, none) := by rw [hres]; simp
      cases b <;>
        exact ⟨[Call.snapshotPropertyGet (d.commitPath commit shard) out], rfl,
          (single hne).1, (single hne).2, by simp⟩
    | none =>
      cases b with
      | false =>
        have hne : readOnlyResult out ≠ (true, none) := by rw [hres]; simp
        exact ⟨[Call.snapshotPropertyGet (d.commitPath commit shard) out], rfl,
          (single hne).1, (single hne).2, by simp⟩
      | true =>
        simp only [subvolumeSnapshot_traced]
        rcases hsnap : (B.subvolumeSnapshot (d.commitPath commit shard)
          (d.commitPath nc shard) st1) with ⟨r, st2⟩
        cases r with
        | some err =>
          refine ⟨[Call.snapshotPropertyGet (d.commitPath commit shard) out,
            Call.subvolumeSnapshot (d.commitPath commit shard) (d.commitPath nc shard)
              (some err)], by simp, ?_, ?_, by simp⟩
          · intro l1 l2 src dest res h
            rcases l1 with _ | ⟨x, _ | ⟨y, l1⟩⟩ <;> simp at h
            obtain ⟨hx, ⟨hs, hd, _⟩, _⟩ := h
            subst hx hs hd
            exact ⟨[], out, shard, rfl, hres, by simp, rfl, rfl⟩
          · intro l1 l2 path probe h hne
            rcases l1 with _ | ⟨x, _ | ⟨y, l1⟩⟩ <;> simp at h
            exact absurd hres (h.1.2 ▸ hne)
        | none =>
          simp only
          simp only [List.append_assoc, List.singleton_append]
          obtain ⟨calls, hlog, ha, hb, hc⟩ := ih st2
            (tr ++ [Call.snapshotPropertyGet (d.commitPath commit shard) out,
              Call.subvolumeSnapshot (d.commitPath commit shard) (d.commitPath nc shard)
                none])
          refine ⟨Call.snapshotPropertyGet (d.commitPath commit shard) out ::
            Call.subvolumeSnapshot (d.commitPath commit shard) (d.commitPath nc shard) none ::
              calls, by rw [hlog]; simp, ?_, ?_, ?_⟩
          · intro l1 l2 src dest res h
            rcases l1 with _ | ⟨x, _ | ⟨y, l1⟩⟩
            · simp at h
            · simp only [List.singleton_append, List.cons.injEq,
                Call.subvolumeSnapshot.injEq] at h
              obtain ⟨hx, ⟨hs, hd, _⟩, _⟩ := h
              subst hx hs hd
              exact ⟨[], out, shard, rfl, hres, by simp, rfl, rfl⟩
            · simp only [List.cons_append, List.cons.injEq] at h
              obtain ⟨hx, hy, hrest⟩ := h
              obtain ⟨l0, probe, s, hl, hp, hmem, hs, hd⟩ := ha l1 l2 src dest res hrest
              exact ⟨x :: y :: l0, probe, s, by simp [hl], hp,
                List.mem_cons_of_mem _ hmem, hs, hd⟩
          · intro l1 l2 path probe h hne
            rcases l1 with _ | ⟨x, _ | ⟨y, l1⟩⟩
            · simp only [List.nil_append, List.cons.injEq,
                Call.snapshotPropertyGet.injEq] at h
              exact absurd hres (h.1.2 ▸ hne)
            · simp at h
            · simp only [List.cons_append, List.cons.injEq] at h
              exact hb l1 l2 path probe h.2.2 hne
          · intro hok
            simp [Call.writableSnapshot, hc hok]

/-- C2: in every run of `Branch`, whatever the order of the shards, a writable
snapshot is a call from `commitPath commit shard` to `commitPath newCommit
shard` for a shard of the set and directly follows the read-only probe of that
source path, which answered `true`; a probe that answered `false` or failed is
the last call of the run, so nothing is snapshotted after it; and when `Branch`
returns a commit, the writable snapshots it took are those of the shards, one
for each shard, each of them successful. -/
theorem Branch_snapshot_only_after_probe {σ : Type} (B : Backend σ) (d : driver)
    (newID : String) (commit : Commit) (newCommit : Option Commit) (shards : List Int)
    (st : σ) :
    (∀ l1 l2 src dest res,
      (Branch B.traced d newID commit newCommit shards (st, [])).2.2 =
          l1 ++ Call.subvolumeSnapshot src dest res :: l2 →
        ∃ l0 probe shard, l1 = l0 ++ [Call.snapshotPropertyGet src probe] ∧
          readOnlyResult probe = (true, none) ∧ shard ∈ shards ∧
          src = d.commitPath commit shard ∧
          dest = d.commitPath
            (newCommit.getD { Repository := commit.Repository, Id := newID }) shard) ∧
    (∀ l1 l2 path probe,
      (Branch B.traced d newID commit newCommit shards (st, [])).2.2 =
          l1 ++ Call.snapshotPropertyGet path probe :: l2 →
        readOnlyResult probe ≠ (true, none) → l2 = []) ∧
    (∀ c, (Branch B.traced d newID commit newCommit shards (st, [])).1 = .ok c →
      c = newCommit.getD { Repository := commit.Repository, Id := newID } ∧
      (Branch B.traced d newID commit newCommit shards (st, [])).2.2.filterMap
          Call.writableSnapshot =
        shards.map (fun s => (d.commitPath commit s,
          d.commitPath (newCommit.getD { Repository := commit.Repository, Id := newID }) s,
          none))) := by
  unfold Branch
  simp only [osMkdir_traced, List.nil_append]
  have hnc : (match newCommit with
    | none => ({ Repository := commit.Repository, Id := newID } : Commit)
    | some c => c) = newCommit.getD { Repository := commit.Repository, Id := newID } := by
    cases newCommit <;> rfl
  rw [hnc]
  generalize newCommit.getD { Repository := commit.Repository, Id := newID } = nc
  rcases hm : B.osMkdir (d.commitPathNoShard nc) st with ⟨r, st1⟩
  cases r with
  | some err =>
    refine ⟨?_, ?_, ?_⟩
    · intro l1 l2 src dest res h
      rcases l1 with _ | ⟨x, l1⟩ <;> simp at h
    · intro l1 l2 path probe h
      rcases l1 with _ | ⟨x, l1⟩ <;> simp at h
    · intro c h
      simp at h
  | none =>
    simp only
    obtain ⟨calls, hlog, ha, hb, hc⟩ := branchShards_calls B d commit nc shards st1
      [Call.osMkdir (d.commitPathNoShard nc) none]
    rcases hrun : branchShards B.traced d commit nc shards
      (st1, [Call.osMkdir (d.commitPathNoShard nc) none]) with ⟨r2, st2, tr2⟩
    rw [hrun] at hlog hc
    simp only at hlog hc
    subst hlog
    have hA : ∀ l1 l2 src dest res,
        [Call.osMkdir (d.commitPathNoShard nc) none] ++ calls =
            l1 ++ Call.subvolumeSnapshot src dest res :: l2 →
          ∃ l0 probe shard, l1 = l0 ++ [Call.snapshotPropertyGet src probe] ∧
            readOnlyResult probe = (true, none) ∧ shard ∈ shards ∧
            src = d.commitPath commit shard ∧ dest = d.commitPath nc shard := by
      intro l1 l2 src dest res h
      rcases l1 with _ | ⟨x, l1⟩
      · simp at h
      · simp only [List.singleton_append, List.cons_append, List.cons.injEq] at h
        obtain ⟨l0, probe, s, hl, hp, hmem, hs, hd⟩ := ha l1 l2 src dest res h.2
        exact ⟨x :: l0, probe, s, by simp [hl], hp, hmem, hs, hd⟩
    have hB : ∀ l1 l2 path probe,
        [Call.osMkdir (d.commitPathNoShard nc) none] ++ calls =
            l1 ++ Call.snapshotPropertyGet path probe :: l2 →
          readOnlyResult probe ≠ (true, none) → l2 = [] := by
      intro l1 l2 path probe h hne
      rcases l1 with _ | ⟨x, l1⟩
      · simp at h
      · simp only [List.singleton_append, List.cons_append, List.cons.injEq] at h
        exact hb l1 l2 path probe h.2 hne
    cases r2 with
    | some err =>
      refine ⟨hA, hB, ?_⟩
      intro c h
      simp at h
    | none =>
      refine ⟨hA, hB, ?_⟩
      intro c h
      simp only [Except.ok.injEq] at h
      refine ⟨h.symm, ?_⟩
      simp [Call.writableSnapshot, hc rfl]

/-- C2 at a concrete tree: `Branch` from the initial commit of a fresh
repository to commit `c1` succeeds, shard `1` visited before shard `0`, and
takes the two snapshots in that order. -/
theorem Branch_snapshot_only_after_probe_witness :
    (Branch fsBackend.traced ⟨"/pfs"⟩ "fresh" ⟨⟨"r"⟩, InitialCommitID⟩ (some ⟨⟨"r"⟩, "c1"⟩)
        [1, 0] (initialisedFs, [])).1 = .ok ⟨⟨"r"⟩, "c1"⟩ ∧
    (Branch fsBackend.traced ⟨"/pfs"⟩ "fresh" ⟨⟨"r"⟩, InitialCommitID⟩ (some ⟨⟨"r"⟩, "c1"⟩)
        [1, 0] (initialisedFs, [])).2.2.filterMap Call.writableSnapshot =
      [("/pfs/r/scratch/1", "/pfs/r/c1/1", none), ("/pfs/r/scratch/0", "/pfs/r/c1/0", none)] :=
  ⟨by decide,
    ((Branch_snapshot_only_after_probe fsBackend ⟨"/pfs"⟩ "fresh" ⟨⟨"r"⟩, InitialCommitID⟩
      (some ⟨⟨"r"⟩, "c1"⟩) [1, 0] initialisedFs).2.2 ⟨⟨"r"⟩, "c1"⟩ (by decide)).2.trans
      (by decide)⟩

/-! ### `InitRepository` -/

theorem subvolumeCreate_traced {σ : Type} (B : Backend σ) (path : String) (st : σ)
    (tr : List Call) :
    B.traced.subvolumeCreate path (st, tr) =
      ((B.subvolumeCreate path st).1,
        ((B.subvolumeCreate path st).2,
          tr ++ [Call.subvolumeCreate path (B.subvolumeCreate path st).1])) := rfl

theorem subvolumeSnapshotReadonly_traced {σ : Type} (B : Backend σ) (src dest : String)
    (st : σ) (tr : List Call) :
    B.traced.subvolumeSnapshotReadonly src dest (st, tr) =
      ((B.subvolumeSnapshotReadonly src dest st).1,
        ((B.subvolumeSnapshotReadonly src dest st).2,
          tr ++ [Call.subvolumeSnapshotReadonly src dest
            (B.subvolumeSnapshotReadonly src dest st).1])) := rfl

/-- `os.Mkdir` on the directory tree fails on a path that exists and leaves
the tree as it was. -/
theorem fsMkdir_exists (path : String) (fs : Fs) (h : (fs.find path).isSome = true) :
    ∃ err, fsBackend.osMkdir path fs = (some err, fs) := by
  refine ⟨Err.external "file exists", ?_⟩
  show fsMkdir path fs = _
  unfold fsMkdir
  rw [if_pos h]

/-- C6: in a storage state where the repository directory exists, which
`os.Mkdir` answers with an error and no change, `InitRepository` returns that
error, the state after it is the state before it, and the failed `os.Mkdir`
is the only call it made: no directory, volume or snapshot is created. -/
theorem InitRepository_existing_repository {σ : Type} (B : Backend σ)
    (dirExists : σ → String → Prop)
    (hmkdir : ∀ path st, dirExists st path → ∃ err, B.osMkdir path st = (some err, st))
    (d : driver) (repository : Repository) (shards : List Int) (st : σ)
    (hexists : dirExists st (d.repositoryPath repository)) :
    ∃ err, InitRepository B.traced d repository shards (st, []) =
      (some err, (st, [Call.osMkdir (d.repositoryPath repository) (some err)])) := by
  obtain ⟨err, herr⟩ := hmkdir _ _ hexists
  refine ⟨err, ?_⟩
  unfold InitRepository
  simp only [osMkdir_traced, herr, List.nil_append]

/-- C6 at a concrete tree: a second `InitRepository` of repository `r`, on
the tree the first one left, fails and changes nothing. -/
theorem InitRepository_existing_repository_witness :
    (initialisedFs.find ((driver.mk "/pfs").repositoryPath ⟨"r"⟩)).isSome = true ∧
    ∃ err, InitRepository fsBackend.traced ⟨"/pfs"⟩ ⟨"r"⟩ [0, 1] (initialisedFs, []) =
      (some err, (initialisedFs,
        [Call.osMkdir ((driver.mk "/pfs").repositoryPath ⟨"r"⟩) (some err)])) :=
  ⟨by decide,
    InitRepository_existing_repository fsBackend (fun fs path => (fs.find path).isSome = true)
      fsMkdir_exists ⟨"/pfs"⟩ ⟨"r"⟩ [0, 1] initialisedFs (by decide)⟩

/-- The calls of a loop of `InitRepository` that ends without error: for each
shard, in the order of the visit, the volume is created and then its
read-only snapshot is taken. -/
theorem initShards_calls {σ : Type} (B : Backend σ) (d : driver) (root initial : Commit) :
    ∀ (shards : List Int) (st : σ) (tr : List Call),
      (initShards B.traced d root initial shards (st, tr)).1 = none →
      (initShards B.traced d root initial shards (st, tr)).2.2 =
        tr ++ shards.flatMap (fun s =>
          [Call.subvolumeCreate (d.commitPath root s) none,
            Call.subvolumeSnapshotReadonly (d.commitPath root s) (d.commitPath initial s)
              none]) := by
  intro shards
  induction shards with
  | nil =>
    intro st tr _
    simp [initShards]
  | cons shard rest ih =>
    intro st tr
    simp only [initShards, subvolumeCreate_traced]
    rcases hc : B.subvolumeCreate (d.commitPath root shard) st with ⟨r, st1⟩
    cases r with
    | some err => simp
    | none =>
      simp only [subvolumeSnapshotReadonly_traced]
      rcases hs : B.subvolumeSnapshotReadonly (d.commitPath root shard)
        (d.commitPath initial shard) st1 with ⟨r2, st2⟩
      cases r2 with
      | some err => simp
      | none =>
        simp only
        intro hok
        rw [ih st2 _ hok]
        simp

/-- C7: whenever `InitRepository` returns success, its calls were the three
`os.Mkdir` and then, for each shard in the order of the visit, the creation
of the writable volume at `commitPath systemRootCommit shard` directly
followed by its read-only snapshot to `commitPath initialCommit shard`, every
call successful; so for every shard of the set the volume was created and the
read-only snapshot of it taken later. -/
theorem InitRepository_success_calls {σ : Type} (B : Backend σ) (d : driver)
    (repository : Repository) (shards : List Int) (st : σ)
    (hok : (InitRepository B.traced d repository shards (st, [])).1 = none) :
    (InitRepository B.traced d repository shards (st, [])).2.2 =
      [Call.osMkdir (d.repositoryPath repository) none,
        Call.osMkdir (d.commitPathNoShard ⟨repository, SystemRootCommitID⟩) none,
        Call.osMkdir (d.commitPathNoShard ⟨repository, InitialCommitID⟩) none] ++
      shards.flatMap (fun s =>
        [Call.subvolumeCreate (d.commitPath ⟨repository, SystemRootCommitID⟩ s) none,
          Call.subvolumeSnapshotReadonly (d.commitPath ⟨repository, SystemRootCommitID⟩ s)
            (d.commitPath ⟨repository, InitialCommitID⟩ s) none]) ∧
    ∀ shard ∈ shards, ∃ l1 l2 l3,
      (InitRepository B.traced d repository shards (st, [])).2.2 =
        l1 ++ Call.subvolumeCreate (d.commitPath ⟨repository, SystemRootCommitID⟩ shard) none ::
          l2 ++ Call.subvolumeSnapshotReadonly
            (d.commitPath ⟨repository, SystemRootCommitID⟩ shard)
            (d.commitPath ⟨repository, InitialCommitID⟩ shard) none :: l3 := by
  have hlog : (InitRepository B.traced d repository shards (st, [])).2.2 =
      [Call.osMkdir (d.repositoryPath repository) none,
        Call.osMkdir (d.commitPathNoShard ⟨repository, SystemRootCommitID⟩) none,
        Call.osMkdir (d.commitPathNoShard ⟨repository, InitialCommitID⟩) none] ++
      shards.flatMap (fun s =>
        [Call.subvolumeCreate (d.commitPath ⟨repository, SystemRootCommitID⟩ s) none,
          Call.subvolumeSnapshotReadonly (d.commitPath ⟨repository, SystemRootCommitID⟩ s)
            (d.commitPath ⟨repository, InitialCommitID⟩ s) none]) := by
    revert hok
    unfold InitRepository
    simp only [osMkdir_traced, List.nil_append]
    rcases h1 : B.osMkdir (d.repositoryPath repository) st with ⟨r1, st1⟩
    cases r1 with
    | some err => simp
    | none =>
      simp only [osMkdir_traced]
      rcases h2 : B.osMkdir (d.commitPathNoShard ⟨repository, SystemRootCommitID⟩) st1
        with ⟨r2, st2⟩
      cases r2 with
      | some err => simp
      | none =>
        simp only [osMkdir_traced]
        rcases h3 : B.osMkdir (d.commitPathNoShard ⟨repository, InitialCommitID⟩) st2
          with ⟨r3, st3⟩
        cases r3 with
        | some err => simp
        | none =>
          simp only
          intro hok
          rw [initShards_calls B d _ _ shards st3 _ hok]
          simp
  refine ⟨hlog, ?_⟩
  intro shard hmem
  obtain ⟨a, b, hab⟩ := List.append_of_mem hmem
  rw [hlog, hab]
  refine ⟨[Call.osMkdir (d.repositoryPath repository) none,
        Call.osMkdir (d.commitPathNoShard ⟨repository, SystemRootCommitID⟩) none,
        Call.osMkdir (d.commitPathNoShard ⟨repository, InitialCommitID⟩) none] ++
      a.flatMap (fun s =>
        [Call.subvolumeCreate (d.commitPath ⟨repository, SystemRootCommitID⟩ s) none,
          Call.subvolumeSnapshotReadonly (d.commitPath ⟨repository, SystemRootCommitID⟩ s)
            (d.commitPath ⟨repository, InitialCommitID⟩ s) none]), [],
      b.flatMap (fun s =>
        [Call.subvolumeCreate (d.commitPath ⟨repository, SystemRootCommitID⟩ s) none,
          Call.subvolumeSnapshotReadonly (d.commitPath ⟨repository, SystemRootCommitID⟩ s)
            (d.commitPath ⟨repository, InitialCommitID⟩ s) none]), ?_⟩
  simp [List.flatMap_append, List.flatMap_cons]

/-- C7 at a concrete tree: `InitRepository` of repository `r` with shards `0`
and `1` succeeds on a tree that holds only the root directory. -/
theorem InitRepository_success_calls_witness :
    (InitRepository fsBackend.traced ⟨"/pfs"⟩ ⟨"r"⟩ [0, 1] (rootOnlyFs, [])).1 = none ∧
    (InitRepository fsBackend.traced ⟨"/pfs"⟩ ⟨"r"⟩ [0, 1] (rootOnlyFs, [])).2.2 =
      [Call.osMkdir "/pfs/r" none, Call.osMkdir "/pfs/r/__root__" none,
        Call.osMkdir "/pfs/r/scratch" none,
        Call.subvolumeCreate "/pfs/r/__root__/0" none,
        Call.subvolumeSnapshotReadonly "/pfs/r/__root__/0" "/pfs/r/scratch/0" none,
        Call.subvolumeCreate "/pfs/r/__root__/1" none,
        Call.subvolumeSnapshotReadonly "/pfs/r/__root__/1" "/pfs/r/scratch/1" none] :=
  ⟨by decide,
    (InitRepository_success_calls fsBackend ⟨"/pfs"⟩ ⟨"r"⟩ [0, 1] rootOnlyFs
      (by decide)).1.trans (by decide)⟩

/-! ### The operations left unsupported -/

/-- C10 (amended): `FlushCommit` of the API server returns an explicit error
for every input; the driver's `ListFiles`, `GetParent`, `PullDiff` and
`PushDiff` return, for every input, a nil error next to a nil value. -/
theorem unsupported_operations_results (d : driver) (path : Path) (commit : Commit)
    (shard : Int) (reader : List Byte) (commits : List Server.Commit)
    (toRepos : List Server.Repo) :
    Server.FlushCommit commits toRepos = (none, some Err.todo) ∧
    ListFiles d path shard = (none, none) ∧
    GetParent d commit = (none, none) ∧
    PullDiff d commit shard = (none, none) ∧
    PushDiff d commit shard reader = none :=
  ⟨rfl, rfl, rfl, rfl, rfl⟩

/-- C10 as stated fails: on a commit of repository `r` under `/pfs`, the four
driver operations return success, that is no error, with a nil value. -/
theorem driver_stubs_return_success :
    (ListFiles ⟨"/pfs"⟩ ⟨⟨⟨"r"⟩, "c1"⟩, "dir"⟩ 0).2 = none ∧
    (ListFiles ⟨"/pfs"⟩ ⟨⟨⟨"r"⟩, "c1"⟩, "dir"⟩ 0).1 = none ∧
    (GetParent ⟨"/pfs"⟩ ⟨⟨"r"⟩, "c1"⟩).2 = none ∧
    (GetParent ⟨"/pfs"⟩ ⟨⟨"r"⟩, "c1"⟩).1 = none ∧
    (PullDiff ⟨"/pfs"⟩ ⟨⟨"r"⟩, "c1"⟩ 0).2 = none ∧
    (PullDiff ⟨"/pfs"⟩ ⟨⟨"r"⟩, "c1"⟩ 0).1 = none ∧
    PushDiff ⟨"/pfs"⟩ ⟨⟨"r"⟩, "c1"⟩ 0 [1, 2, 3] = none := by
  decide

/-! ## Theorems about the API server -/

namespace Server

/-- The loop of `drainFileServer` with enough rounds returns every message
left and ends on the error of the stream. -/
theorem drainLoop_spec {δ : Type} :
    ∀ (pending : List PutFileRequest) (fuel : Nat) (closeErr : Err) (drv : δ)
      (trace : List Event), pending.length < fuel →
      drainLoop fuel (⟨⟨pending, closeErr⟩, drv, trace⟩ : World δ) =
        ⟨⟨[], closeErr⟩, drv,
          trace ++ (pending.map (fun m => Event.recv (.ok m)) ++
            [Event.recv (.error closeErr)])⟩ := by
  intro pending
  induction pending with
  | nil =>
    intro fuel closeErr drv trace h
    obtain ⟨n, rfl⟩ : ∃ n, fuel = n + 1 := ⟨fuel - 1, by simp at h; omega⟩
    simp [drainLoop, Recv, World.log]
  | cons m rest ih =>
    intro fuel closeErr drv trace h
    obtain ⟨n, rfl⟩ : ∃ n, fuel = n + 1 := ⟨fuel - 1, by simp at h; omega⟩
    simp only [drainLoop, Recv, World.log]
    rw [ih n closeErr drv _ (by simpa using h)]
    simp

theorem drainFileServer_spec {δ : Type} (w : World δ) :
    drainFileServer w =
      ⟨⟨[], w.server.closeErr⟩, w.drv,
        w.trace ++ (w.server.pending.map (fun m => Event.recv (.ok m)) ++
          [Event.recv (.error w.server.closeErr)])⟩ := by
  obtain ⟨⟨pending, closeErr⟩, drv, trace⟩ := w
  exact drainLoop_spec pending _ closeErr drv trace (Nat.lt_succ_self _)

/-- C3 (amended): when the first message of the stream has entry type
directory and a value that is not empty, `PutFile` makes no call to the
driver: its calls are the `Recv` of that message, `SendAndClose`, and the
`Recv` calls of the drain, and the storage of the driver is as before. When
the message carries a `File`, `PutFile` returns the error of the check; when
it carries none, the handler panics on `request.File.Path` before the check,
and the deferred calls run. -/
theorem PutFile_directory_with_value {δ : Type} (env : Env δ) (sched : List Action)
    (request : PutFileRequest) (rest : List PutFileRequest) (closeErr : Err) (drv : δ)
    (hdir : request.FileType = FileType.FILE_TYPE_DIR) (hvalue : request.Value ≠ []) :
    PutFile env sched ⟨⟨request :: rest, closeErr⟩, drv, []⟩ =
      (if request.File.isSome then Exit.returned (some Err.dirWithValue) else Exit.panicked)
        ⟨⟨[], closeErr⟩, drv,
          Event.recv (.ok request) :: Event.sendAndClose env.sendAndClose ::
            (rest.map (fun m => Event.recv (.ok m)) ++ [Event.recv (.error closeErr)])⟩ := by
  have hlen : request.Value.length > 0 := List.length_pos.mpr hvalue
  cases hfile : request.File with
  | none => simp [PutFile, putFileBody, Recv, World.log, hfile, drainFileServer_spec]
  | some file =>
    simp [PutFile, putFileBody, Recv, World.log, hfile, hdir, hlen, drainFileServer_spec]

/-- C3 on a stream: a directory request that carries its file and three
bytes, followed by one more message. -/
theorem PutFile_directory_with_value_witness :
    ({ chunk [1, 2, 3] with FileType := FileType.FILE_TYPE_DIR } : PutFileRequest).FileType =
      FileType.FILE_TYPE_DIR ∧
    PutFile sampleEnv [] ⟨⟨[{ chunk [1, 2, 3] with FileType := FileType.FILE_TYPE_DIR },
        chunk [4]], Err.eof⟩, [], []⟩ =
      Exit.returned (some Err.dirWithValue)
        ⟨⟨[], Err.eof⟩, [],
          [Event.recv (.ok { chunk [1, 2, 3] with FileType := FileType.FILE_TYPE_DIR }),
            Event.sendAndClose none, Event.recv (.ok (chunk [4])),
            Event.recv (.error Err.eof)]⟩ :=
  ⟨rfl, PutFile_directory_with_value sampleEnv []
    { chunk [1, 2, 3] with FileType := FileType.FILE_TYPE_DIR } [chunk [4]] Err.eof [] rfl
    (by decide)⟩

/-- C3 as stated fails on a message without a `File`: a directory request
that carries three bytes and a nil `File` makes the handler panic on
`request.File.Path`, before the check of the value; `PutFile` returns no
error. The deferred `SendAndClose` and the drain run, and the driver is not
called. -/
theorem PutFile_directory_with_value_nil_file :
    ({ chunk [1, 2, 3] with File := none, FileType := FileType.FILE_TYPE_DIR } :
      PutFileRequest).FileType = FileType.FILE_TYPE_DIR ∧
    PutFile sampleEnv []
        ⟨⟨[{ chunk [1, 2, 3] with File := none, FileType := FileType.FILE_TYPE_DIR },
          chunk [4]], Err.eof⟩, [], []⟩ =
      Exit.panicked
        ⟨⟨[], Err.eof⟩, [],
          [Event.recv (.ok
              { chunk [1, 2, 3] with File := none, FileType := FileType.FILE_TYPE_DIR }),
            Event.sendAndClose none, Event.recv (.ok (chunk [4])),
            Event.recv (.error Err.eof)]⟩ := by
  decide

/-! ### `putFileReader` -/

/-- When no message after the first carries an empty value, reading with
buffers of a fixed positive size until `Read` returns an error delivers the
bytes in the reader's buffer followed by the values of all the messages, in
order, and ends on the error of the stream. -/
theorem readToError_nonempty_chunks {δ : Type} (len : Nat) (hlen : 0 < len) :
    ∀ (fuel : Nat) (buffer : List Byte) (pending : List PutFileRequest) (closeErr : Err)
      (drv : δ) (trace : List Event),
      (∀ m ∈ pending, m.Value ≠ []) →
      buffer.length + (pending.flatMap (fun m => m.Value)).length + 1 ≤ fuel →
      (readToError len fuel (({ buffer := buffer } : putFileReader),
          (⟨⟨pending, closeErr⟩, drv, trace⟩ : World δ))).1 =
        (buffer ++ pending.flatMap (fun m => m.Value), some closeErr) := by
  intro fuel
  induction fuel with
  | zero =>
    intro buffer pending closeErr drv trace _ h
    omega
  | succ fuel ih =>
    intro buffer pending closeErr drv trace hne hfuel
    cases buffer with
    | nil =>
      cases pending with
      | nil => simp [readToError, putFileReader.Read, Recv]
      | cons m rest =>
        have hm : m.Value ≠ [] := hne m (List.mem_cons_self _ _)
        have hpos : 0 < m.Value.length := List.length_pos.mpr hm
        have hrest : ∀ x ∈ rest, x.Value ≠ [] := fun x hx => hne x (List.mem_cons_of_mem _ hx)
        simp only [List.flatMap_cons, List.length_append, List.length_nil, Nat.zero_add]
          at hfuel
        have hstep := ih (m.Value.drop len) rest closeErr drv
          (trace ++ [Event.recv (.ok m)]) hrest (by
            simp only [List.length_drop]
            omega)
        simp only [readToError, putFileReader.Read, Recv, World.log, List.length_nil,
          if_true, List.nil_append, bufferRead, Nat.ne_of_gt hpos, if_false, hstep,
          List.flatMap_cons]
        simp [← List.append_assoc, List.take_append_drop]
    | cons b bs =>
      have hstep := ih ((b :: bs).drop len) pending closeErr drv trace hne (by
        simp only [List.length_drop, List.length_cons] at hfuel ⊢
        omega)
      simp only [readToError, putFileReader.Read, bufferRead, List.length_cons,
        Nat.succ_ne_zero, if_false, hstep]
      simp [← List.append_assoc, List.take_append_drop]

/-- C5 fails on a message with an empty value in the middle of the stream.
The client sends the bytes `1`, then an empty chunk, then the byte `2`, and
closes. Reading the `putFileReader` until it returns an error delivers the
byte `1` only and ends on `io.EOF`; the handler, with a driver that copies
the reader to the file, writes a file of the one byte `1`, returns success,
and receives the chunk of the byte `2` only in the drain. -/
theorem putFileReader_empty_chunk_ends_the_read :
    (readToError 4096 8 (({ buffer := [1] } : putFileReader),
        (⟨⟨[chunk [], chunk [2]], Err.eof⟩, [], []⟩ : World (List (File × List Byte))))).1 =
      ([1], some Err.eof) ∧
    PutFile sampleEnv [] ⟨⟨[chunk [1], chunk [], chunk [2]], Err.eof⟩, [], []⟩ =
      Exit.returned none
        ⟨⟨[], Err.eof⟩, [(NewFile "r" "c" "f", [1])],
          [Event.recv (.ok (chunk [1])), Event.recv (.ok (chunk [])),
            Event.putFile (NewFile "r" "c" "f") none, Event.sendAndClose none,
            Event.recv (.ok (chunk [2])), Event.recv (.error Err.eof)]⟩ := by
  decide

/-! ### The recursive import -/

/-- When the scheduler lets the walk run alone, the three statements of the
callback for each name in turn, every name gets its goroutine and none has
returned: the channel is empty again and all the goroutines are running. -/
theorem runSchedule_walk_only {δ : Type} (env : Env δ) (objClient : ObjClient)
    (request : PutFileRequest) (path : String) :
    ∀ (names : List String) (s : ImportState δ), s.todo = names → s.pc = WalkPc.idle →
      s.sem = 0 → s.crashed = false →
      runSchedule env objClient request path (List.replicate (3 * names.length) Action.walk) s =
        { s with todo := [], running := s.running ++ names } := by
  intro names
  induction names with
  | nil =>
    intro s htodo hpc hsem hcrashed
    obtain ⟨todo, pc, sem, running, egErr, retErr, w, crashed⟩ := s
    simp only at htodo hpc hsem hcrashed
    subst htodo hpc hsem hcrashed
    simp [runSchedule]
  | cons name rest ih =>
    intro s htodo hpc hsem hcrashed
    obtain ⟨todo, pc, sem, running, egErr, retErr, w, crashed⟩ := s
    simp only at htodo hpc hsem hcrashed
    subst htodo hpc hsem hcrashed
    have h3 : 3 * (name :: rest).length = 3 * rest.length + 1 + 1 + 1 := by
      simp only [List.length_cons]
      omega
    rw [h3]
    simp only [List.replicate_succ, runSchedule, importStep, concurrentPuts]
    simp only [Nat.zero_add, Nat.zero_lt_succ, if_true, Nat.lt_irrefl, Nat.sub_self,
      Nat.one_pos, Nat.reduceLT, Bool.false_eq_true, if_false]
    rw [ih _ rfl rfl rfl rfl]
    simp

/-- C9 fails on a prefix with 101 names when the walk is faster than the
goroutines: after the walk has reported every name and before any `put` has
returned, 101 goroutines started by `putFileObj` are running, more than
`concurrentPuts`; the channel `sem` is empty, since the callback takes its
element back as soon as the goroutine is started. -/
theorem putFileObj_runs_more_than_concurrentPuts :
    (runSchedule sampleEnv sampleStore { chunk [] with Url := "s3://pre", Recursive := true }
        "pre" (List.replicate (3 * 101) Action.walk)
        (importStart (manyNames 101) ⟨⟨[], Err.eof⟩, [], []⟩)).running.length = 101 ∧
    (runSchedule sampleEnv sampleStore { chunk [] with Url := "s3://pre", Recursive := true }
        "pre" (List.replicate (3 * 101) Action.walk)
        (importStart (manyNames 101) ⟨⟨[], Err.eof⟩, [], []⟩)).sem = 0 ∧
    concurrentPuts < 101 := by
  have h := runSchedule_walk_only sampleEnv sampleStore
    { chunk [] with Url := "s3://pre", Recursive := true } "pre" (manyNames 101)
    (importStart (manyNames 101) ⟨⟨[], Err.eof⟩, [], []⟩) rfl rfl rfl rfl
  have hlen : (manyNames 101).length = 101 := by simp [manyNames]
  rw [hlen] at h
  rw [h]
  refine ⟨?_, rfl, by decide⟩
  simp [importStart, manyNames]

/-- The result of `put` and its calls: `put` touches the stream in no case;
when the request carries its file, commit and repository it returns, the
reader of the object is opened, and the driver writes the file exactly when
the reader opened. -/
theorem put_calls {δ : Type} (env : Env δ) (objClient : ObjClient) (request : PutFileRequest)
    (repoName commitID : String) (filePath objPath : String) (retErr : Option Err)
    (w : World δ) (htarget : request.repoAndCommit = some (repoName, commitID)) :
    (∃ res, (put env objClient request filePath objPath retErr w).1 = some res) ∧
    (put env objClient request filePath objPath retErr w).2.server = w.server ∧
    ∃ r1 r2, (put env objClient request filePath objPath retErr w).2.trace =
      w.trace ++ Event.objReader objPath r1 ::
        (if objClient.opens objPath = true then
          [Event.putFile (NewFile repoName commitID filePath) r2]
        else []) := by
  unfold put ObjClient.opens
  cases h : objClient.Reader objPath with
  | error err => exact ⟨⟨_, rfl⟩, rfl, some err, none, by simp [World.log]⟩
  | ok body =>
    simp only [htarget]
    exact ⟨⟨_, rfl⟩, rfl, none,
      ((env.driver.PutFile (NewFile repoName commitID filePath) w.drv).run Body.Read body).1.1,
      by simp [World.log]⟩

/-- Whatever the request carries, `put` leaves the stream alone and makes no
call on it. -/
theorem put_world {δ : Type} (env : Env δ) (objClient : ObjClient) (request : PutFileRequest)
    (filePath objPath : String) (retErr : Option Err) (w : World δ) :
    (put env objClient request filePath objPath retErr w).2.server = w.server ∧
    ∃ ev, (put env objClient request filePath objPath retErr w).2.trace = w.trace ++ ev ∧
      ∀ e ∈ ev, ∀ res, e ≠ Event.sendAndClose res := by
  unfold put
  cases h : objClient.Reader objPath with
  | error err => exact ⟨rfl, [Event.objReader objPath (some err)], rfl, by simp⟩
  | ok body =>
    cases ht : request.repoAndCommit with
    | none => exact ⟨rfl, [Event.objReader objPath none], rfl, by simp⟩
    | some target =>
      exact ⟨rfl, _, List.append_assoc _ _ _, by simp⟩

theorem perm_eraseIdx {α : Type} :
    ∀ (l : List α) (i : Nat) (x : α), l[i]? = some x →
      List.Perm l (x :: l.eraseIdx i) := by
  intro l
  induction l with
  | nil =>
    intro i x h
    simp at h
  | cons a rest ih =>
    intro i x h
    cases i with
    | zero =>
      simp only [List.getElem?_cons_zero, Option.some.injEq] at h
      subst h
      simp
    | succ n =>
      simp only [List.getElem?_cons_succ] at h
      simp only [List.eraseIdx_cons_succ]
      exact ((ih n x h).cons a).trans (List.Perm.swap _ _ _)

/-- For a request that carries its file, commit and repository, a step of
the import keeps `ImportInv` and uses up one of the steps left. -/
theorem importStep_inv {δ : Type} (env : Env δ) (objClient : ObjClient)
    (request : PutFileRequest) (file : File) (repoName commitID : String) (path : String)
    (names : List String) (w0 : World δ) (a : Action) (s s2 : ImportState δ)
    (hfile : request.File = some file)
    (hrepo : file.repoAndCommit = some (repoName, commitID))
    (hinv : ImportInv objClient repoName commitID file.Path path names w0 s)
    (hstep : importStep env objClient request path a s = some s2) :
    ImportInv objClient repoName commitID file.Path path names w0 s2 ∧
      s2.stepsLeft + 1 = s.stepsLeft := by
  have htarget : request.repoAndCommit = some (repoName, commitID) := by
    simp [PutFileRequest.repoAndCommit, hfile, hrepo]
  obtain ⟨todo, pc, sem, running, egErr, retErr, w, crashed⟩ := s
  obtain ⟨hcrashed, hsem, hserver, ev, htrace, hstream, hread, hwrite⟩ := hinv
  simp only at hcrashed hsem hserver htrace
  subst hcrashed
  simp only [importStep, Bool.false_eq_true, if_false] at hstep
  cases a with
  | walk =>
    cases pc with
    | idle =>
      cases todo with
      | nil => simp at hstep
      | cons name rest =>
        simp only at hstep
        split at hstep
        · cases hstep
          refine ⟨⟨rfl, by simp [hsem], hserver, ev, htrace, hstream, ?_, ?_⟩, ?_⟩
          · simpa [ImportState.notRun, WalkPc.held] using hread
          · simpa [ImportState.notRun, WalkPc.held] using hwrite
          · simp only [ImportState.stepsLeft, List.length_cons]
            omega
        · cases hstep
    | acquired name =>
      simp only [Option.some.injEq] at hstep
      subst hstep
      refine ⟨⟨rfl, by simpa using hsem, hserver, ev, htrace, hstream, ?_, ?_⟩, ?_⟩
      · simpa [ImportState.notRun, WalkPc.held] using hread
      · simpa [ImportState.notRun, WalkPc.held] using hwrite
      · simp only [ImportState.stepsLeft, List.length_append, List.length_singleton]
        omega
    | spawned =>
      simp only at hstep
      split at hstep
      · cases hstep
        refine ⟨⟨rfl, by simp at hsem; simp [hsem], hserver, ev, htrace, hstream, ?_, ?_⟩, ?_⟩
        · simpa [ImportState.notRun, WalkPc.held] using hread
        · simpa [ImportState.notRun, WalkPc.held] using hwrite
        · simp only [ImportState.stepsLeft]
          omega
      · cases hstep
  | finish i =>
    simp only at hstep
    cases hget : running[i]? with
    | none => simp [hget] at hstep
    | some objPath =>
      simp only [hget, hfile] at hstep
      obtain ⟨⟨res, hres⟩, hsrv, r1, r2, hcalls⟩ := put_calls env objClient request repoName
        commitID (filepathJoin [file.Path, stringsTrimPrefix objPath path]) objPath retErr w
        htarget
      simp only [hres, Option.some.injEq] at hstep
      subst hstep
      have hperm := perm_eraseIdx running i objPath hget
      have hlen : (running.eraseIdx i).length + 1 = running.length := by
        have := hperm.length_eq
        simp only [List.length_cons] at this
        omega
      refine ⟨⟨rfl, hsem, hsrv.trans hserver, ?_⟩, ?_⟩
      · refine ⟨ev ++ Event.objReader objPath r1 ::
          (if objClient.opens objPath = true then
            [Event.putFile (NewFile repoName commitID
              (filepathJoin [file.Path, stringsTrimPrefix objPath path])) r2]
          else []), ?_, ?_, ?_, ?_⟩
        · simp only [hcalls, htrace, List.append_assoc]
        · intro e he
          rcases List.mem_append.mp he with h | h
          · exact hstream e h
          · rcases List.mem_cons.mp h with h | h
            · subst h
              rfl
            · split at h
              · simp only [List.mem_singleton] at h
                subst h
                rfl
              · simp at h
        · have hrn : (ev ++ Event.objReader objPath r1 ::
              (if objClient.opens objPath = true then
                [Event.putFile (NewFile repoName commitID
                  (filepathJoin [file.Path, stringsTrimPrefix objPath path])) r2]
              else [])).filterMap Event.readerName =
              ev.filterMap Event.readerName ++ [objPath] := by
            split <;> simp [List.filterMap_append, List.filterMap_cons, Event.readerName]
          rw [hrn]
          refine List.Perm.trans ?_ hread
          simp only [ImportState.notRun, List.append_assoc]
          refine List.Perm.append_left _ ?_
          simp only [List.singleton_append]
          exact ((hperm.symm).append_right _)
        · have hnot : List.Perm
              (objPath :: (running.eraseIdx i ++ (pc.held ++ todo)))
              (running ++ (pc.held ++ todo)) := (hperm.symm).append_right _
          have hfm := (hnot.filter objClient.opens).map
            (destination repoName commitID file.Path path)
          refine List.Perm.trans ?_ hwrite
          simp only [ImportState.notRun]
          refine List.Perm.trans ?_ (List.Perm.append_left _ hfm)
          by_cases hopen : objClient.opens objPath = true
          · simp [hopen, List.filterMap_append, List.filterMap_cons, Event.writtenFile,
              Event.readerName, List.filter_cons, destination]
          · simp [hopen, List.filterMap_append, List.filterMap_cons, Event.writtenFile,
              Event.readerName, List.filter_cons]
      · simp only [ImportState.stepsLeft]
        omega

theorem runSchedule_inv {δ : Type} (env : Env δ) (objClient : ObjClient)
    (request : PutFileRequest) (file : File) (repoName commitID : String) (path : String)
    (names : List String) (w0 : World δ) (hfile : request.File = some file)
    (hrepo : file.repoAndCommit = some (repoName, commitID)) :
    ∀ (sched : List Action) (s : ImportState δ),
      ImportInv objClient repoName commitID file.Path path names w0 s →
      ImportInv objClient repoName commitID file.Path path names w0
          (runSchedule env objClient request path sched s) ∧
        (runSchedule env objClient request path sched s).stepsLeft ≤ s.stepsLeft := by
  intro sched
  induction sched with
  | nil =>
    intro s hinv
    exact ⟨hinv, Nat.le_refl _⟩
  | cons a rest ih =>
    intro s hinv
    simp only [runSchedule]
    cases hstep : importStep env objClient request path a s with
    | none => exact ih s hinv
    | some s2 =>
      obtain ⟨hinv2, hless⟩ := importStep_inv env objClient request file repoName commitID
        path names w0 a s s2 hfile hrepo hinv hstep
      obtain ⟨h1, h2⟩ := ih s2 hinv2
      exact ⟨h1, by simp only; omega⟩

/-- Under `ImportInv` the walk can always move unless it is over, and the
oldest goroutine can always return: an import whose steps are both refused is
finished. -/
theorem finished_of_no_step {δ : Type} (env : Env δ) (objClient : ObjClient)
    (request : PutFileRequest) (file : File) (repoName commitID : String) (path : String)
    (names : List String) (w0 : World δ) (s : ImportState δ)
    (hfile : request.File = some file)
    (hinv : ImportInv objClient repoName commitID file.Path path names w0 s)
    (hwalk : importStep env objClient request path Action.walk s = none)
    (hfinish : importStep env objClient request path (Action.finish 0) s = none) :
    s.finished = true := by
  obtain ⟨todo, pc, sem, running, egErr, retErr, w, crashed⟩ := s
  have hsem := hinv.sem_eq
  have hcrashed := hinv.crashed_eq
  simp only at hsem hcrashed
  subst hcrashed
  simp only [importStep, Bool.false_eq_true, if_false] at hwalk hfinish
  cases running with
  | cons t rest =>
    simp only [List.getElem?_cons_zero, hfile] at hfinish
    split at hfinish <;> cases hfinish
  | nil =>
    cases pc with
    | idle =>
      cases todo with
      | nil => rfl
      | cons name rest =>
        simp only [if_true] at hsem
        simp [hsem, concurrentPuts] at hwalk
    | acquired name => simp at hwalk
    | spawned =>
      simp only [reduceCtorEq, if_false] at hsem
      simp [hsem] at hwalk

/-- With as many rounds as there are steps left, the rest of an import runs
to its end: `eg.Wait()` returns. -/
theorem completeImport_finishes {δ : Type} (env : Env δ) (objClient : ObjClient)
    (request : PutFileRequest) (file : File) (repoName commitID : String) (path : String)
    (names : List String) (w0 : World δ) (hfile : request.File = some file)
    (hrepo : file.repoAndCommit = some (repoName, commitID)) :
    ∀ (fuel : Nat) (s : ImportState δ),
      ImportInv objClient repoName commitID file.Path path names w0 s →
      s.stepsLeft ≤ fuel →
      ∃ s2, completeImport env objClient request path fuel s = some s2 ∧
        ImportInv objClient repoName commitID file.Path path names w0 s2 ∧
        s2.finished = true := by
  intro fuel
  induction fuel with
  | zero =>
    intro s hinv hfuel
    have hfin : s.finished = true := by
      obtain ⟨todo, pc, sem, running, egErr, retErr, w, crashed⟩ := s
      simp only [ImportState.stepsLeft, Nat.le_zero_eq, Nat.add_eq_zero, Nat.mul_eq_zero,
        List.length_eq_zero, OfNat.ofNat_ne_zero, false_or] at hfuel
      obtain ⟨⟨htodo, hpc⟩, hrunning⟩ := hfuel
      subst htodo hrunning
      cases pc with
      | idle => rfl
      | acquired name => simp at hpc
      | spawned => simp at hpc
    exact ⟨s, by simp [completeImport, hfin], hinv, hfin⟩
  | succ fuel ih =>
    intro s hinv hfuel
    simp only [completeImport]
    cases hwalk : importStep env objClient request path Action.walk s with
    | some s2 =>
      obtain ⟨hinv2, hless⟩ := importStep_inv env objClient request file repoName commitID
        path names w0 _ s s2 hfile hrepo hinv hwalk
      exact ih s2 hinv2 (by omega)
    | none =>
      cases hfinish : importStep env objClient request path (Action.finish 0) s with
      | some s2 =>
        obtain ⟨hinv2, hless⟩ := importStep_inv env objClient request file repoName commitID
          path names w0 _ s s2 hfile hrepo hinv hfinish
        exact ih s2 hinv2 (by omega)
      | none =>
        have hfin := finished_of_no_step env objClient request file repoName commitID path
          names w0 s hfile hinv hwalk hfinish
        exact ⟨s, by simp [hfin], hinv, hfin⟩

theorem importStart_inv {δ : Type} (objClient : ObjClient) (repoName commitID filePath : String)
    (path : String) (names : List String) (w : World δ) :
    ImportInv objClient repoName commitID filePath path names w (importStart names w) where
  crashed_eq := rfl
  sem_eq := rfl
  server_eq := rfl
  calls := ⟨[], by simp [importStart], by simp, by simp [importStart, ImportState.notRun,
    WalkPc.held], by simp [importStart, ImportState.notRun, WalkPc.held]⟩

/-- A recursive import for a request that carries its file, commit and
repository returns, whatever the schedule, and what it did is one opening of
a reader per reported name and one write per name whose reader opens, to the
destination of that name; the stream is untouched. -/
theorem putFileObj_recursive {δ : Type} (env : Env δ) (sched : List Action)
    (objClient : ObjClient) (request : PutFileRequest) (file : File)
    (repoName commitID : String) (url : URL) (w : World δ)
    (hfile : request.File = some file)
    (hrepo : file.repoAndCommit = some (repoName, commitID))
    (hrec : request.Recursive = true) :
    ∃ res w2 ev, putFileObj env sched objClient request url w = Exit.returned res w2 ∧
      w2.server = w.server ∧ w2.trace = w.trace ++ ev ∧ (∀ e ∈ ev, e.onStream = false) ∧
      List.Perm (ev.filterMap Event.readerName)
        (objClient.Walk (stringsTrimPrefix url.Path "/")).1 ∧
      List.Perm (ev.filterMap Event.writtenFile)
        (((objClient.Walk (stringsTrimPrefix url.Path "/")).1.filter objClient.opens).map
          (destination repoName commitID file.Path (stringsTrimPrefix url.Path "/"))) := by
  unfold putFileObj
  simp only [hrec, if_true]
  generalize stringsTrimPrefix url.Path "/" = path
  generalize (objClient.Walk path).1 = names
  obtain ⟨hinv1, hless⟩ := runSchedule_inv env objClient request file repoName commitID path
    names w hfile hrepo sched (importStart names w)
    (importStart_inv objClient repoName commitID file.Path path names w)
  have hfuel : (runSchedule env objClient request path sched
      (importStart names w)).stepsLeft ≤ 4 * names.length := by
    refine Nat.le_trans hless ?_
    simp [importStart, ImportState.stepsLeft]
  obtain ⟨s2, hrun, hinv2, hfin⟩ := completeImport_finishes env objClient request file
    repoName commitID path names w hfile hrepo _ _ hinv1 hfuel
  rw [hrun]
  obtain ⟨hcrashed, _, hserver, ev, htrace, hstream, hread, hwrite⟩ := hinv2
  have hnot : s2.notRun = [] := by
    obtain ⟨todo, pc, sem, running, egErr, retErr, w3, crashed⟩ := s2
    simp only [ImportState.finished, Bool.and_eq_true, List.isEmpty_iff,
      decide_eq_true_eq] at hfin
    obtain ⟨⟨htodo, hpc⟩, hrunning⟩ := hfin
    simp [ImportState.notRun, htodo, hpc, hrunning, WalkPc.held]
  rw [hnot] at hread hwrite
  simp only [List.append_nil, List.filter_nil, List.map_nil] at hread hwrite
  simp only [hcrashed, Bool.false_eq_true, if_false]
  exact ⟨s2.egErr, s2.w, ev, rfl, hserver, htrace, hstream, hread, hwrite⟩

/-- C8 (amended): a recursive import, for a request that carries its file,
commit and repository, returns under every schedule, and its calls are one
opening of a reader for each name the walk reports, reading from that name,
and one write of the driver for each reported name whose reader opens, to the
destination `filepath.Join(P, name without the prefix S)`; a name whose
reader does not open gets no write. So `K` reported names give `K` openings,
and `K` writes when every reader opens. -/
theorem putFileObj_one_put_per_name {δ : Type} (env : Env δ) (sched : List Action)
    (objClient : ObjClient) (request : PutFileRequest) (file : File)
    (repoName commitID : String) (url : URL) (w : World δ)
    (hfile : request.File = some file)
    (hrepo : file.repoAndCommit = some (repoName, commitID))
    (hrec : request.Recursive = true) :
    ∃ res w2 ev, putFileObj env sched objClient request url w = Exit.returned res w2 ∧
      w2.trace = w.trace ++ ev ∧
      List.Perm (ev.filterMap Event.readerName)
        (objClient.Walk (stringsTrimPrefix url.Path "/")).1 ∧
      List.Perm (ev.filterMap Event.writtenFile)
        (((objClient.Walk (stringsTrimPrefix url.Path "/")).1.filter objClient.opens).map
          (destination repoName commitID file.Path (stringsTrimPrefix url.Path "/"))) ∧
      (ev.filterMap Event.readerName).length =
        (objClient.Walk (stringsTrimPrefix url.Path "/")).1.length ∧
      ((∀ name ∈ (objClient.Walk (stringsTrimPrefix url.Path "/")).1,
          objClient.opens name = true) →
        (ev.filterMap Event.writtenFile).length =
          (objClient.Walk (stringsTrimPrefix url.Path "/")).1.length) := by
  obtain ⟨res, w2, ev, hrun, _, htrace, _, hread, hwrite⟩ :=
    putFileObj_recursive env sched objClient request file repoName commitID url w hfile hrepo
      hrec
  refine ⟨res, w2, ev, hrun, htrace, hread, hwrite, hread.length_eq, ?_⟩
  intro hall
  rw [hwrite.length_eq, List.length_map, List.filter_eq_self.mpr hall]

/-- C8 on the sample store: a recursive import of the prefix `pre` into the
file path `f`, the goroutine of the second name returning first. -/
theorem putFileObj_one_put_per_name_witness :
    ({ chunk [] with Url := "s3://pre", Recursive := true } : PutFileRequest).Recursive = true ∧
    ∃ res w2 ev,
      putFileObj sampleEnv [Action.walk, Action.walk, Action.walk, Action.walk, Action.walk,
          Action.finish 1] sampleStore { chunk [] with Url := "s3://pre", Recursive := true }
          ⟨"s3", "/pre"⟩ ⟨⟨[], Err.eof⟩, [], []⟩ = Exit.returned res w2 ∧
      w2.trace = ([] : List Event) ++ ev ∧
      List.Perm (ev.filterMap Event.readerName)
        (sampleStore.Walk (stringsTrimPrefix "/pre" "/")).1 ∧
      List.Perm (ev.filterMap Event.writtenFile)
        (((sampleStore.Walk (stringsTrimPrefix "/pre" "/")).1.filter sampleStore.opens).map
          (destination "r" "c" "f" (stringsTrimPrefix "/pre" "/"))) ∧
      (ev.filterMap Event.readerName).length =
        (sampleStore.Walk (stringsTrimPrefix "/pre" "/")).1.length ∧
      ((∀ name ∈ (sampleStore.Walk (stringsTrimPrefix "/pre" "/")).1,
          sampleStore.opens name = true) →
        (ev.filterMap Event.writtenFile).length =
          (sampleStore.Walk (stringsTrimPrefix "/pre" "/")).1.length) :=
  ⟨rfl, putFileObj_one_put_per_name sampleEnv _ sampleStore
    { chunk [] with Url := "s3://pre", Recursive := true } (NewFile "r" "c" "f") "r" "c"
    ⟨"s3", "/pre"⟩ ⟨⟨[], Err.eof⟩, [], []⟩ rfl rfl rfl⟩

/-- C8 as stated fails when an object cannot be read: the walk of the sample
store reports three names, the reader of `pre/b` does not open, and two
writes are made, to `f/a` and `f/c`, and none for `pre/b`. -/
theorem putFileObj_unreadable_name_not_written :
    (sampleStore.Walk "pre").1 = ["pre/a", "pre/b", "pre/c"] ∧
    putFileObj sampleEnv [] sampleStore { chunk [] with Url := "s3://pre", Recursive := true }
        ⟨"s3", "/pre"⟩ ⟨⟨[], Err.eof⟩, [], []⟩ =
      Exit.returned (some (Err.external "no such object"))
        ⟨⟨[], Err.eof⟩, [(NewFile "r" "c" "f/a", [1, 2]), (NewFile "r" "c" "f/c", [1, 2])],
          [Event.objReader "pre/a" none, Event.putFile (NewFile "r" "c" "f/a") none,
            Event.objReader "pre/b" (some (Err.external "no such object")),
            Event.objReader "pre/c" none, Event.putFile (NewFile "r" "c" "f/c") none]⟩ := by
  decide

/-! ### `PutFile`: one acknowledgement, and the drain -/

/-- A `Read` of the `putFileReader` touches the world only through `Recv`. -/
theorem putFileReader_Read_world {δ : Type} (len : Nat) (r : putFileReader) (w : World δ) :
    (putFileReader.Read len (r, w)).2.2.server.closeErr = w.server.closeErr ∧
    (putFileReader.Read len (r, w)).2.2.drv = w.drv ∧
    ∃ ev, (putFileReader.Read len (r, w)).2.2.trace = w.trace ++ ev ∧
      ∀ e ∈ ev, ∀ res, e ≠ Event.sendAndClose res := by
  unfold putFileReader.Read
  by_cases hbuf : r.buffer.length = 0
  · simp only [hbuf, if_true]
    obtain ⟨⟨pending, closeErr⟩, drv, trace⟩ := w
    cases pending with
    | nil =>
      refine ⟨rfl, rfl, [Event.recv (.error closeErr)], rfl, ?_⟩
      intro e he res
      simp only [List.mem_singleton] at he
      subst he
      simp
    | cons m rest =>
      refine ⟨rfl, rfl, [Event.recv (.ok m)], rfl, ?_⟩
      intro e he res
      simp only [List.mem_singleton] at he
      subst he
      simp
  · rw [if_neg hbuf]
    exact ⟨rfl, rfl, [], by simp, by simp⟩

/-- Whatever way the driver reads the `putFileReader`, it touches the world
only through `Recv`. -/
theorem run_putFileReader_world {δ : Type} :
    ∀ (plan : WritePlan δ) (r : putFileReader) (w : World δ),
      (plan.run putFileReader.Read (r, w)).2.2.server.closeErr = w.server.closeErr ∧
      ∃ ev, (plan.run putFileReader.Read (r, w)).2.2.trace = w.trace ++ ev ∧
        ∀ e ∈ ev, ∀ res, e ≠ Event.sendAndClose res := by
  intro plan
  induction plan with
  | done res st =>
    intro r w
    exact ⟨rfl, [], by simp [WritePlan.run], by simp⟩
  | read len next ih =>
    intro r w
    obtain ⟨hclose, _, ev1, htrace1, hev1⟩ := putFileReader_Read_world len r w
    obtain ⟨hclose2, ev2, htrace2, hev2⟩ :=
      ih (putFileReader.Read len (r, w)).1 (putFileReader.Read len (r, w)).2.1
        (putFileReader.Read len (r, w)).2.2
    refine ⟨by simpa [WritePlan.run] using hclose2.trans hclose, ev1 ++ ev2, ?_, ?_⟩
    · simp only [WritePlan.run]
      rw [htrace2, htrace1, List.append_assoc]
    · intro e he
      rcases List.mem_append.mp he with h | h
      · exact hev1 e h
      · exact hev2 e h

/-- How `putFileObj` ends, recursive or not, when a recursive request carries
its file, commit and repository: it returns, or the goroutine of the handler
panics in a `put` that is not recursive, for a request that lacks one of the
three; in both cases it touches neither the stream nor the acknowledgement. -/
theorem putFileObj_exits {δ : Type} (env : Env δ) (sched : List Action)
    (objClient : ObjClient) (request : PutFileRequest) (url : URL) (w : World δ)
    (hrec : request.Recursive = true → request.repoAndCommit ≠ none) :
    ∃ w2 ev,
      ((∃ res, putFileObj env sched objClient request url w = Exit.returned res w2) ∨
        (putFileObj env sched objClient request url w = Exit.panicked w2 ∧
          request.repoAndCommit = none)) ∧
      w2.server = w.server ∧ w2.trace = w.trace ++ ev ∧
      ∀ e ∈ ev, ∀ res, e ≠ Event.sendAndClose res := by
  by_cases hr : request.Recursive = true
  · have hsome := hrec hr
    cases hfile : request.File with
    | none => simp [PutFileRequest.repoAndCommit, hfile] at hsome
    | some file =>
      cases hrepo : file.repoAndCommit with
      | none => simp [PutFileRequest.repoAndCommit, hfile, hrepo] at hsome
      | some target =>
        obtain ⟨repoName, commitID⟩ := target
        obtain ⟨res, w2, ev, hrun, hserver, htrace, hstream, _, _⟩ :=
          putFileObj_recursive env sched objClient request file repoName commitID url w hfile
            hrepo hr
        refine ⟨w2, ev, Or.inl ⟨res, hrun⟩, hserver, htrace, ?_⟩
        intro e he res2 heq
        have := hstream e he
        rw [heq] at this
        simp [Event.onStream] at this
  · cases hfile : request.File with
    | none =>
      exact ⟨w, [], Or.inr ⟨by simp [putFileObj, hr, hfile],
        by simp [PutFileRequest.repoAndCommit, hfile]⟩, rfl, by simp, by simp⟩
    | some file =>
      obtain ⟨hserver, ev, htrace, hev⟩ :=
        put_world env objClient request file.Path url.Path none w
      cases hout : (put env objClient request file.Path url.Path none w).1 with
      | some res =>
        exact ⟨_, ev, Or.inl ⟨res.1, by simp [putFileObj, hr, hfile, hout]⟩, hserver, htrace,
          hev⟩
      | none =>
        have hnone : request.repoAndCommit = none := by
          cases ht : request.repoAndCommit with
          | none => rfl
          | some target =>
            obtain ⟨⟨res, hres⟩, _⟩ := put_calls env objClient request target.1 target.2
              file.Path url.Path none w ht
            rw [hres] at hout
            cases hout
        exact ⟨_, ev, Or.inr ⟨by simp [putFileObj, hr, hfile, hout], hnone⟩, hserver, htrace,
          hev⟩

/-- How the body of `PutFile` ends when a first message that asks for a
recursive import and carries a file carries the commit and the repository
too: it returns, or the goroutine of the handler panics on a nil pointer of
the first message; it keeps the error of the stream and calls no
`SendAndClose`. -/
theorem putFileBody_exits {δ : Type} (env : Env δ) (sched : List Action) (w : World δ)
    (hrec : ∀ request rest file, w.server.pending = request :: rest →
      request.Recursive = true → request.File = some file → file.repoAndCommit ≠ none) :
    ∃ w2 ev,
      ((∃ retErr, putFileBody env sched w = Exit.returned retErr w2) ∨
        (putFileBody env sched w = Exit.panicked w2 ∧
          ∃ request rest, w.server.pending = request :: rest ∧
            request.repoAndCommit = none)) ∧
      w2.server.closeErr = w.server.closeErr ∧ w2.trace = w.trace ++ ev ∧
      ∀ e ∈ ev, ∀ res, e ≠ Event.sendAndClose res := by
  obtain ⟨⟨pending, closeErr⟩, drv, trace⟩ := w
  cases pending with
  | nil =>
    by_cases herr : closeErr = Err.eof
    · exact ⟨⟨⟨[], closeErr⟩, drv, trace ++ [Event.recv (.error closeErr)]⟩,
        [Event.recv (.error closeErr)],
        Or.inl ⟨none, by simp [putFileBody, Recv, World.log, herr]⟩, rfl, rfl, by simp⟩
    · exact ⟨⟨⟨[], closeErr⟩, drv, trace ++ [Event.recv (.error closeErr)]⟩,
        [Event.recv (.error closeErr)],
        Or.inl ⟨some closeErr, by simp [putFileBody, Recv, World.log, herr]⟩, rfl, rfl,
        by simp⟩
  | cons request rest =>
    cases hfile : request.File with
    | none =>
      exact ⟨⟨⟨rest, closeErr⟩, drv, trace ++ [Event.recv (.ok request)]⟩,
        [Event.recv (.ok request)],
        Or.inr ⟨by simp [putFileBody, Recv, World.log, hfile], request, rest, rfl,
          by simp [PutFileRequest.repoAndCommit, hfile]⟩, rfl, rfl, by simp⟩
    | some file =>
      have key : ∀ o, putFileBody env sched
            (⟨⟨request :: rest, closeErr⟩, drv, trace⟩ : World δ) = o →
          ∃ w2 ev,
            ((∃ retErr, o = Exit.returned retErr w2) ∨
              (o = Exit.panicked w2 ∧ request.repoAndCommit = none)) ∧
            w2.server.closeErr = closeErr ∧ w2.trace = trace ++ ev ∧
            ∀ e ∈ ev, ∀ res, e ≠ Event.sendAndClose res := by
        intro o h
        unfold putFileBody at h
        simp only [Recv, World.log, hfile] at h
        split at h
        · split at h
          · subst h
            exact ⟨_, [Event.recv (.ok request)], Or.inl ⟨_, rfl⟩, rfl, rfl, by simp⟩
          · subst h
            exact ⟨_, _, Or.inl ⟨_, rfl⟩, rfl, List.append_assoc _ _ _, by simp⟩
        · split at h
          · split at h
            · subst h
              exact ⟨_, [Event.recv (.ok request)], Or.inl ⟨_, rfl⟩, rfl, rfl, by simp⟩
            · split at h
              · split at h
                · subst h
                  exact ⟨_, [Event.recv (.ok request)], Or.inl ⟨_, rfl⟩, rfl, rfl, by simp⟩
                · subst h
                  exact ⟨_, _, Or.inl ⟨_, rfl⟩, rfl, List.append_assoc _ _ _, by simp⟩
              · split at h
                · subst h
                  exact ⟨_, [Event.recv (.ok request)], Or.inl ⟨_, rfl⟩, rfl, rfl, by simp⟩
                · rename_i url _ _ _ objClient _
                  have hrec2 : ({ request with
                        File := some { file with Path := pathClean file.Path } } :
                        PutFileRequest).Recursive = true →
                      ({ request with
                        File := some { file with Path := pathClean file.Path } } :
                        PutFileRequest).repoAndCommit ≠ none := by
                    intro hr
                    exact hrec request rest file rfl hr hfile
                  obtain ⟨w2, ev, hexit, hserver, htrace, hev⟩ :=
                    putFileObj_exits env sched objClient
                      { request with
                        File := some { file with Path := pathClean file.Path } }
                      url
                      (⟨⟨rest, closeErr⟩, drv, trace ++ [Event.recv (.ok request)]⟩ : World δ)
                      hrec2
                  refine ⟨w2, Event.recv (.ok request) :: ev, ?_, by rw [hserver], by
                    rw [htrace]; simp, ?_⟩
                  · rcases hexit with ⟨res, hres⟩ | ⟨hpanic, hnone⟩
                    · exact Or.inl ⟨res, by rw [← h, hres]⟩
                    · refine Or.inr ⟨by rw [← h, hpanic], ?_⟩
                      simpa [PutFileRequest.repoAndCommit, hfile, File.repoAndCommit]
                        using hnone
                  · intro e he
                    rcases List.mem_cons.mp he with h1 | h1
                    · subst h1
                      simp
                    · exact hev e h1
          · subst h
            obtain ⟨hclose, ev, htrace, hev⟩ := run_putFileReader_world
              (env.driver.PutFile { file with Path := pathClean file.Path } drv)
              { buffer := request.Value }
              (⟨⟨rest, closeErr⟩, drv, trace ++ [Event.recv (.ok request)]⟩ : World δ)
            refine ⟨_, _, Or.inl ⟨_, rfl⟩, hclose,
              (congrArg (fun l => l ++ [_]) htrace).trans
                ((List.append_assoc _ _ _).trans (List.append_assoc _ _ _)), ?_⟩
            intro e he
            rcases List.mem_append.mp he with h1 | h1
            · simp only [List.mem_singleton] at h1
              subst h1
              simp
            · rcases List.mem_append.mp h1 with h2 | h2
              · exact hev e h2
              · simp only [List.mem_singleton] at h2
                subst h2
                simp
      obtain ⟨w2, ev, hexit, hclose, htrace, hev⟩ := key _ rfl
      refine ⟨w2, ev, ?_, hclose, htrace, hev⟩
      rcases hexit with h | ⟨h, hnone⟩
      · exact Or.inl h
      · exact Or.inr ⟨h, request, rest, rfl, hnone⟩

/-- The result of one `put` next to its calls, for a request that carries its
file, commit and repository: the error of the reader when it does not open,
and no write; else the result of the one write. -/
theorem put_result {δ : Type} (env : Env δ) (objClient : ObjClient) (request : PutFileRequest)
    (repoName commitID : String) (filePath objPath : String) (retErr : Option Err)
    (w : World δ) (htarget : request.repoAndCommit = some (repoName, commitID)) :
    (objClient.opens objPath = false ∧
      ∃ err retErr2,
        (put env objClient request filePath objPath retErr w).1 = some (some err, retErr2) ∧
        (put env objClient request filePath objPath retErr w).2.trace =
          w.trace ++ [Event.objReader objPath (some err)]) ∨
    (objClient.opens objPath = true ∧
      ∃ res retErr2,
        (put env objClient request filePath objPath retErr w).1 = some (res, retErr2) ∧
        (put env objClient request filePath objPath retErr w).2.trace =
          w.trace ++ [Event.objReader objPath none,
            Event.putFile (NewFile repoName commitID filePath) res]) := by
  unfold put ObjClient.opens
  cases h : objClient.Reader objPath with
  | error err => exact Or.inl ⟨rfl, err, retErr, rfl, rfl⟩
  | ok body =>
    rw [htarget]
    exact Or.inr ⟨rfl, _, _, rfl, by simp [World.log]⟩

/-- What a step of the import keeps true, a schedule keeps true. -/
theorem runSchedule_preserves {δ : Type} (env : Env δ) (objClient : ObjClient)
    (request : PutFileRequest) (path : String) (P : ImportState δ → Prop)
    (hstep : ∀ a s s2, P s → importStep env objClient request path a s = some s2 → P s2) :
    ∀ (sched : List Action) (s : ImportState δ), P s →
      P (runSchedule env objClient request path sched s) := by
  intro sched
  induction sched with
  | nil =>
    intro s hs
    exact hs
  | cons a rest ih =>
    intro s hs
    simp only [runSchedule]
    cases h : importStep env objClient request path a s with
    | none => exact ih s hs
    | some s2 => exact ih s2 (hstep a s s2 hs h)

/-- What a step of the import keeps true holds at the end of the import. -/
theorem completeImport_preserves {δ : Type} (env : Env δ) (objClient : ObjClient)
    (request : PutFileRequest) (path : String) (P : ImportState δ → Prop)
    (hstep : ∀ a s s2, P s → importStep env objClient request path a s = some s2 → P s2) :
    ∀ (fuel : Nat) (s s2 : ImportState δ), P s →
      completeImport env objClient request path fuel s = some s2 → P s2 := by
  intro fuel
  induction fuel with
  | zero =>
    intro s s2 hs h
    simp only [completeImport] at h
    split at h
    · cases h
      exact hs
    · cases h
  | succ fuel ih =>
    intro s s2 hs h
    simp only [completeImport] at h
    cases hwalk : importStep env objClient request path Action.walk s with
    | some s3 =>
      rw [hwalk] at h
      exact ih s3 s2 (hstep _ s s3 hs hwalk) h
    | none =>
      rw [hwalk] at h
      simp only at h
      cases hfinish : importStep env objClient request path (Action.finish 0) s with
      | some s3 =>
        rw [hfinish] at h
        exact ih s3 s2 (hstep _ s s3 hs hfinish) h
      | none =>
        rw [hfinish] at h
        simp only at h
        split at h
        · cases h
          exact hs
        · cases h

/-- While the `errgroup.Group` holds no error, no call made since the start of
the import has failed and every reader asked for has opened; a step keeps
this true, for a request that carries its file, commit and repository. -/
theorem importStep_no_error {δ : Type} (env : Env δ) (objClient : ObjClient)
    (request : PutFileRequest) (file : File) (repoName commitID : String) (path : String)
    (w0 : World δ) (a : Action) (s s2 : ImportState δ)
    (hfile : request.File = some file)
    (hrepo : file.repoAndCommit = some (repoName, commitID))
    (hs : ∃ ev, s.w.trace = w0.trace ++ ev ∧
      (s.egErr = none → (∀ e ∈ ev, e.failed = false) ∧
        ∀ name ∈ ev.filterMap Event.readerName, objClient.opens name = true))
    (hstep : importStep env objClient request path a s = some s2) :
    ∃ ev, s2.w.trace = w0.trace ++ ev ∧
      (s2.egErr = none → (∀ e ∈ ev, e.failed = false) ∧
        ∀ name ∈ ev.filterMap Event.readerName, objClient.opens name = true) := by
  have htarget : request.repoAndCommit = some (repoName, commitID) := by
    simp [PutFileRequest.repoAndCommit, hfile, hrepo]
  obtain ⟨todo, pc, sem, running, egErr, retErr, w, crashed⟩ := s
  obtain ⟨ev, htrace, hok⟩ := hs
  simp only at htrace hok
  simp only [importStep] at hstep
  split at hstep
  · cases hstep
  cases a with
  | walk =>
    cases pc with
    | idle =>
      cases todo with
      | nil => simp at hstep
      | cons name rest =>
        simp only at hstep
        split at hstep
        · cases hstep
          exact ⟨ev, htrace, hok⟩
        · cases hstep
    | acquired name =>
      simp only [Option.some.injEq] at hstep
      subst hstep
      exact ⟨ev, htrace, hok⟩
    | spawned =>
      simp only at hstep
      split at hstep
      · cases hstep
        exact ⟨ev, htrace, hok⟩
      · cases hstep
  | finish i =>
    simp only at hstep
    cases hget : running[i]? with
    | none => simp [hget] at hstep
    | some objPath =>
      simp only [hget, hfile] at hstep
      rcases put_result env objClient request repoName commitID
          (filepathJoin [file.Path, stringsTrimPrefix objPath path]) objPath retErr w htarget
        with ⟨_, err, retErr2, hres, hcalls⟩ | ⟨hopen, res, retErr2, hres, hcalls⟩
      · simp only [hres, Option.some.injEq] at hstep
        subst hstep
        refine ⟨ev ++ [Event.objReader objPath (some err)], by
          simp only [hcalls, htrace, List.append_assoc], ?_⟩
        intro hnone
        simp only at hnone
        split at hnone
        · cases hnone
        · rename_i hne
          exact absurd hnone hne
      · simp only [hres, Option.some.injEq] at hstep
        subst hstep
        refine ⟨ev ++ [Event.objReader objPath none,
          Event.putFile (NewFile repoName commitID
            (filepathJoin [file.Path, stringsTrimPrefix objPath path])) res], by
          simp only [hcalls, htrace, List.append_assoc], ?_⟩
        intro hnone
        simp only at hnone
        have hboth : egErr = none ∧ res = none := by
          split at hnone
          · rename_i he
            exact ⟨he, hnone⟩
          · rename_i hne
            exact absurd hnone hne
        obtain ⟨hfail, hopens⟩ := hok hboth.1
        rw [hboth.2]
        refine ⟨?_, ?_⟩
        · intro e he
          rcases List.mem_append.mp he with h | h
          · exact hfail e h
          · simp only [List.mem_cons, List.mem_singleton, List.not_mem_nil, or_false] at h
            rcases h with h | h <;> subst h <;> rfl
        · intro name hname
          simp only [List.filterMap_append, List.mem_append] at hname
          rcases hname with h | h
          · exact hopens name h
          · simp only [List.filterMap_cons, Event.readerName, List.filterMap_nil,
              List.mem_singleton] at h
            subst h
            exact hopen

/-- A recursive import that returns success, for a request that carries its
file, commit and repository, has opened the reader of every name the walk
reported, and none of its calls on the object store and on the driver
returned an error: every spawned `put` succeeded. -/
theorem putFileObj_success_every_put {δ : Type} (env : Env δ) (sched : List Action)
    (objClient : ObjClient) (request : PutFileRequest) (file : File)
    (repoName commitID : String) (url : URL) (w w2 : World δ)
    (hfile : request.File = some file)
    (hrepo : file.repoAndCommit = some (repoName, commitID))
    (hrec : request.Recursive = true)
    (hok : putFileObj env sched objClient request url w = Exit.returned none w2) :
    (∀ name ∈ (objClient.Walk (stringsTrimPrefix url.Path "/")).1,
      objClient.opens name = true) ∧
    ∃ ev, w2.trace = w.trace ++ ev ∧ (∀ e ∈ ev, e.failed = false) ∧
      List.Perm (ev.filterMap Event.writtenFile)
        ((objClient.Walk (stringsTrimPrefix url.Path "/")).1.map
          (destination repoName commitID file.Path (stringsTrimPrefix url.Path "/"))) := by
  obtain ⟨res, w3, ev, hrun, _, htrace, _, hread, hwrite⟩ :=
    putFileObj_recursive env sched objClient request file repoName commitID url w hfile hrepo
      hrec
  rw [hrun] at hok
  simp only [Exit.returned.injEq] at hok
  obtain ⟨hres, hw⟩ := hok
  subst hres hw
  unfold putFileObj at hrun
  simp only [hrec, if_true] at hrun
  generalize stringsTrimPrefix url.Path "/" = path at hrun hread hwrite ⊢
  generalize (objClient.Walk path).1 = names at hrun hread hwrite ⊢
  cases hc : completeImport env objClient request path (4 * names.length)
      (runSchedule env objClient request path sched (importStart names w)) with
  | none => simp [hc] at hrun
  | some s2 =>
    rw [hc] at hrun
    simp only at hrun
    split at hrun
    · cases hrun
    simp only [Exit.returned.injEq] at hrun
    obtain ⟨hegErr, hsw⟩ := hrun
    have hstart : ∃ ev, (importStart names w).w.trace = w.trace ++ ev ∧
        ((importStart names w).egErr = none → (∀ e ∈ ev, e.failed = false) ∧
          ∀ name ∈ ev.filterMap Event.readerName, objClient.opens name = true) :=
      ⟨[], by simp [importStart], by simp⟩
    have hsched := runSchedule_preserves env objClient request path _
      (fun a s s2 => importStep_no_error env objClient request file repoName commitID path w
        a s s2 hfile hrepo) sched _ hstart
    obtain ⟨ev2, htrace2, hnoerr⟩ := completeImport_preserves env objClient request path _
      (fun a s s2 => importStep_no_error env objClient request file repoName commitID path w
        a s s2 hfile hrepo) _ _ s2 hsched hc
    rw [hsw, htrace] at htrace2
    have hev : ev = ev2 := List.append_cancel_left htrace2
    subst hev
    obtain ⟨hfail, hopens⟩ := hnoerr hegErr
    have hall : ∀ name ∈ names, objClient.opens name = true :=
      fun name hname => hopens name (hread.mem_iff.mpr hname)
    refine ⟨hall, ev, htrace, hfail, ?_⟩
    rwa [List.filter_eq_self.mpr hall] at hwrite

theorem runSchedule_reader_only {δ : Type} (env : Env δ) (reader : String → Except Err Body)
    (walk1 walk2 : String → List String × Option Err) (request : PutFileRequest)
    (path : String) :
    ∀ (sched : List Action) (s : ImportState δ),
      runSchedule env { Reader := reader, Walk := walk1 } request path sched s =
        runSchedule env { Reader := reader, Walk := walk2 } request path sched s := by
  intro sched
  induction sched with
  | nil =>
    intro s
    rfl
  | cons a rest ih =>
    intro s
    have hstep : importStep env { Reader := reader, Walk := walk1 } request path a s =
        importStep env { Reader := reader, Walk := walk2 } request path a s := by
      cases a <;> rfl
    simp only [runSchedule, hstep]
    cases importStep env { Reader := reader, Walk := walk2 } request path a s with
    | none => exact ih s
    | some s2 => exact ih s2

theorem completeImport_reader_only {δ : Type} (env : Env δ)
    (reader : String → Except Err Body) (walk1 walk2 : String → List String × Option Err)
    (request : PutFileRequest) (path : String) :
    ∀ (fuel : Nat) (s : ImportState δ),
      completeImport env { Reader := reader, Walk := walk1 } request path fuel s =
        completeImport env { Reader := reader, Walk := walk2 } request path fuel s := by
  intro fuel
  induction fuel with
  | zero =>
    intro s
    rfl
  | succ fuel ih =>
    intro s
    have hstep : ∀ a, importStep env { Reader := reader, Walk := walk1 } request path a s =
        importStep env { Reader := reader, Walk := walk2 } request path a s := by
      intro a
      cases a <;> rfl
    simp only [completeImport, hstep]
    cases importStep env { Reader := reader, Walk := walk2 } request path Action.walk s with
    | some s2 => exact ih s2
    | none =>
      simp only
      cases importStep env { Reader := reader, Walk := walk2 } request path
          (Action.finish 0) s with
      | some s2 => exact ih s2
      | none => rfl

/-- The error `Walk` returns has no part in the result of `putFileObj`: an
object store whose `Walk` reports the same names and returns no error gives
the same result and the same world. -/
theorem putFileObj_walk_error_dropped {δ : Type} (env : Env δ) (sched : List Action)
    (objClient : ObjClient) (request : PutFileRequest) (url : URL) (w : World δ) :
    putFileObj env sched objClient request url w =
      putFileObj env sched
        { Reader := objClient.Reader, Walk := fun p => ((objClient.Walk p).1, none) }
        request url w := by
  obtain ⟨reader, walk⟩ := objClient
  unfold putFileObj
  by_cases hrec : request.Recursive = true
  · simp only [hrec, if_true]
    rw [runSchedule_reader_only env reader walk (fun p => ((walk p).1, none)),
      completeImport_reader_only env reader walk (fun p => ((walk p).1, none))]
  · simp only [hrec]
    rfl

/-- C11 fails when the listing breaks off after names whose objects import
without error. The walk of the store reports `pre/a` and then returns the
error `listing failed`; the one `put` succeeds; `putFileObj` returns success,
not the error of the walk, and so does the handler `PutFile` that called
it. -/
theorem putFileObj_returns_success_on_walk_error :
    (brokenListingStore.Walk "pre").2 = some (Err.external "listing failed") ∧
    putFileObj sampleEnv [] brokenListingStore
        { chunk [] with Url := "s3://pre", Recursive := true } ⟨"s3", "/pre"⟩
        ⟨⟨[], Err.eof⟩, [], []⟩ =
      Exit.returned none
        ⟨⟨[], Err.eof⟩, [(NewFile "r" "c" "f/a", [1, 2])],
          [Event.objReader "pre/a" none, Event.putFile (NewFile "r" "c" "f/a") none]⟩ ∧
    PutFile { sampleEnv with newObjClient := fun _ => .ok brokenListingStore } []
        ⟨⟨[{ chunk [] with Url := "s3://pre", Recursive := true }], Err.eof⟩, [], []⟩ =
      Exit.returned none
        ⟨⟨[], Err.eof⟩, [(NewFile "r" "c" "f/a", [1, 2])],
          [Event.recv (.ok { chunk [] with Url := "s3://pre", Recursive := true }),
            Event.objReader "pre/a" none, Event.putFile (NewFile "r" "c" "f/a") none,
            Event.sendAndClose none, Event.recv (.error Err.eof)]⟩ := by
  decide

end Server

end Pfs
